import Mathlib

/-!
Verification development for the rez package-environment manager.

The development covers two areas:

* the dependency resolution core (version algebra, version ranges,
  requirement parsing, conflict explanation and the backtracking solver)
  described in the specification; this code is not part of the repository
  snapshot, so it is modelled from the specification text, and
* the gitbash shell plugin (path normalization and executable discovery),
  embedded directly from rezplugins/shell/gitbash.py.

Machine strings are modelled as lists of characters.
-/

/-- Three-way comparison of natural numbers, the primitive comparison used
for numeric version tokens. Modelled from the spec: numeric tokens compare
numerically. -/
def natCmp (a b : Nat) : Ordering :=
  if a < b then .lt else if b < a then .gt else .eq

theorem natCmp_eq_iff (a b : Nat) : natCmp a b = .eq ↔ a = b := by
  unfold natCmp
  split
  · simp
    omega
  · split
    · simp
      omega
    · simp
      omega

theorem natCmp_swap (a b : Nat) : natCmp b a = (natCmp a b).swap := by
  unfold natCmp
  by_cases h1 : a < b
  · simp [h1, Nat.lt_asymm h1, Ordering.swap]
  · by_cases h2 : b < a
    · simp [h1, h2, Ordering.swap]
    · simp [h1, h2, Ordering.swap]

theorem natCmp_lt_iff (a b : Nat) : natCmp a b = .lt ↔ a < b := by
  unfold natCmp
  split
  · simp_all
  · split <;> simp_all

theorem natCmp_lt_trans {a b c : Nat} (h1 : natCmp a b = .lt)
    (h2 : natCmp b c = .lt) : natCmp a c = .lt := by
  rw [natCmp_lt_iff] at *
  omega

/-- Lexicographic comparison of lists by a component comparator. Used both
for the character sequence of an alphabetic token and for the token sequence
of a version; a strict prefix compares less than its extensions. -/
def lexCompare (cmp : α → α → Ordering) : List α → List α → Ordering
  | [], [] => .eq
  | [], _ :: _ => .lt
  | _ :: _, [] => .gt
  | a :: as, b :: bs =>
    match cmp a b with
    | .eq => lexCompare cmp as bs
    | o => o

theorem lexCompare_eq_iff (cmp : α → α → Ordering)
    (hcmp : ∀ a b, cmp a b = .eq ↔ a = b) :
    ∀ l1 l2, lexCompare cmp l1 l2 = .eq ↔ l1 = l2
  | [], [] => by simp [lexCompare]
  | [], _ :: _ => by simp [lexCompare]
  | _ :: _, [] => by simp [lexCompare]
  | a :: as, b :: bs => by
    unfold lexCompare
    cases h : cmp a b with
    | eq =>
      have hab : a = b := (hcmp a b).mp h
      simp [hab, lexCompare_eq_iff cmp hcmp as bs]
    | lt =>
      have hab : ¬ a = b := fun he => by simp [(hcmp a b).mpr he] at h
      simp [hab]
    | gt =>
      have hab : ¬ a = b := fun he => by simp [(hcmp a b).mpr he] at h
      simp [hab]

theorem lexCompare_swap (cmp : α → α → Ordering)
    (hswap : ∀ a b, cmp b a = (cmp a b).swap) :
    ∀ l1 l2, lexCompare cmp l2 l1 = (lexCompare cmp l1 l2).swap
  | [], [] => by simp [lexCompare, Ordering.swap]
  | [], _ :: _ => by simp [lexCompare, Ordering.swap]
  | _ :: _, [] => by simp [lexCompare, Ordering.swap]
  | a :: as, b :: bs => by
    unfold lexCompare
    rw [hswap a b]
    cases h : cmp a b with
    | eq => simpa [Ordering.swap] using lexCompare_swap cmp hswap as bs
    | lt => simp [Ordering.swap]
    | gt => simp [Ordering.swap]

theorem lexCompare_lt_trans (cmp : α → α → Ordering)
    (hcmp : ∀ a b, cmp a b = .eq ↔ a = b)
    (htr : ∀ {a b c}, cmp a b = .lt → cmp b c = .lt → cmp a c = .lt) :
    ∀ l1 l2 l3, lexCompare cmp l1 l2 = .lt → lexCompare cmp l2 l3 = .lt →
      lexCompare cmp l1 l3 = .lt
  | [], [], _ => by simp [lexCompare]
  | _ :: _, [], _ => by simp [lexCompare]
  | [], _ :: _, [] => by simp [lexCompare]
  | [], _ :: _, _ :: _ => by simp [lexCompare]
  | a :: as, b :: bs, [] => by simp [lexCompare]
  | a :: as, b :: bs, c :: cs => by
    intro h1 h2
    unfold lexCompare at h1 h2 ⊢
    rcases hab : cmp a b with _ | _ | _ <;> rw [hab] at h1 <;> simp at h1 <;>
      rcases hbc : cmp b c with _ | _ | _ <;> rw [hbc] at h2 <;> simp at h2
    · rw [htr hab hbc]
    · have hb : b = c := (hcmp b c).mp hbc
      rw [← hb, hab]
    · have hb : a = b := (hcmp a b).mp hab
      rw [hb, hbc]
    · have hb : a = b := (hcmp a b).mp hab
      rw [hb, hbc]
      simpa using lexCompare_lt_trans cmp hcmp @htr as bs cs h1 h2

/-- Comparison of characters by code point, used for alphabetic tokens. -/
def charCmp (c1 c2 : Char) : Ordering := natCmp c1.toNat c2.toNat

theorem charCmp_eq_iff (c1 c2 : Char) : charCmp c1 c2 = .eq ↔ c1 = c2 := by
  unfold charCmp
  rw [natCmp_eq_iff]
  constructor
  · intro h
    exact Char.ext (UInt32.ext h)
  · intro h
    rw [h]

theorem charCmp_swap (c1 c2 : Char) : charCmp c2 c1 = (charCmp c1 c2).swap :=
  natCmp_swap _ _

theorem charCmp_lt_trans {a b c : Char} (h1 : charCmp a b = .lt)
    (h2 : charCmp b c = .lt) : charCmp a c = .lt :=
  natCmp_lt_trans h1 h2

/-- Version token. Modelled from the spec: a token is either numeric
(comparing numerically) or alphabetic (comparing lexically); a numeric token
sorts before an alphabetic one. -/
inductive Token where
  | num : Nat → Token
  | alpha : List Char → Token
deriving DecidableEq

/-- Comparison of two version tokens, as dictated by the spec data model. -/
def tokenCmp : Token → Token → Ordering
  | .num a, .num b => natCmp a b
  | .num _, .alpha _ => .lt
  | .alpha _, .num _ => .gt
  | .alpha s1, .alpha s2 => lexCompare charCmp s1 s2

theorem tokenCmp_eq_iff (t1 t2 : Token) : tokenCmp t1 t2 = .eq ↔ t1 = t2 := by
  cases t1 <;> cases t2 <;> simp [tokenCmp, natCmp_eq_iff,
    lexCompare_eq_iff charCmp charCmp_eq_iff]

theorem tokenCmp_swap (t1 t2 : Token) : tokenCmp t2 t1 = (tokenCmp t1 t2).swap := by
  cases t1 <;> cases t2
  · exact natCmp_swap _ _
  · rfl
  · rfl
  · exact lexCompare_swap charCmp charCmp_swap _ _

theorem tokenCmp_lt_trans {t1 t2 t3 : Token} (h1 : tokenCmp t1 t2 = .lt)
    (h2 : tokenCmp t2 t3 = .lt) : tokenCmp t1 t3 = .lt := by
  cases t1 <;> cases t2 <;> cases t3 <;> simp_all [tokenCmp]
  · exact natCmp_lt_trans h1 h2
  · exact lexCompare_lt_trans charCmp charCmp_eq_iff charCmp_lt_trans _ _ _ h1 h2

/-- Version: an ordered sequence of alphanumeric tokens. Modelled from the
spec: immutable once parsed, total order with equality. -/
abbrev Version := List Token

/-- Total-order comparison of versions. Modelled from the spec contract
compare(v1, v2) of the Version and Range Algebra component. -/
def versionCompare (v1 v2 : Version) : Ordering := lexCompare tokenCmp v1 v2

theorem versionCompare_eq_iff (v1 v2 : Version) :
    versionCompare v1 v2 = .eq ↔ v1 = v2 :=
  lexCompare_eq_iff tokenCmp tokenCmp_eq_iff v1 v2

theorem versionCompare_swap (v1 v2 : Version) :
    versionCompare v2 v1 = (versionCompare v1 v2).swap :=
  lexCompare_swap tokenCmp tokenCmp_swap v1 v2

theorem versionCompare_lt_trans {v1 v2 v3 : Version}
    (h1 : versionCompare v1 v2 = .lt) (h2 : versionCompare v2 v3 = .lt) :
    versionCompare v1 v3 = .lt :=
  lexCompare_lt_trans tokenCmp tokenCmp_eq_iff @tokenCmp_lt_trans v1 v2 v3 h1 h2

/-- Boolean comparison with false sorting before true, used to order
inclusivity flags of interval cuts. -/
def boolCmp : Bool → Bool → Ordering
  | false, false => .eq
  | false, true => .lt
  | true, false => .gt
  | true, true => .eq

/-- Interval cut: a position in the space of versions lying strictly between
versions. The cut mid v false sits just before version v and mid v true just
after it; negInf and posInf are the unbounded ends. Bounds of version ranges
are compared through their cuts, which linearizes all inclusive and
exclusive endpoint comparisons of the spec data model. -/
inductive ECut where
  | negInf : ECut
  | mid : Version → Bool → ECut
  | posInf : ECut
deriving DecidableEq

/-- Linear comparison of interval cuts. -/
def cutCmp : ECut → ECut → Ordering
  | .negInf, .negInf => .eq
  | .negInf, _ => .lt
  | _, .negInf => .gt
  | .posInf, .posInf => .eq
  | .posInf, _ => .gt
  | _, .posInf => .lt
  | .mid v1 s1, .mid v2 s2 =>
    match versionCompare v1 v2 with
    | .eq => boolCmp s1 s2
    | o => o

theorem boolCmp_eq_iff (a b : Bool) : boolCmp a b = .eq ↔ a = b := by
  cases a <;> cases b <;> simp [boolCmp]

theorem boolCmp_swap (a b : Bool) : boolCmp b a = (boolCmp a b).swap := by
  cases a <;> cases b <;> rfl

theorem cutCmp_eq_iff (c1 c2 : ECut) : cutCmp c1 c2 = .eq ↔ c1 = c2 := by
  cases c1 <;> cases c2
  case negInf.negInf => simp [cutCmp]
  case negInf.mid v s => simp [cutCmp]
  case negInf.posInf => simp [cutCmp]
  case mid.negInf v s => simp [cutCmp]
  case mid.posInf v s => simp [cutCmp]
  case posInf.negInf => simp [cutCmp]
  case posInf.mid v s => simp [cutCmp]
  case posInf.posInf => simp [cutCmp]
  case mid.mid v1 s1 v2 s2 =>
    simp only [cutCmp, ECut.mid.injEq]
    cases h : versionCompare v1 v2 with
    | eq =>
      have hv : v1 = v2 := (versionCompare_eq_iff v1 v2).mp h
      simp [hv, boolCmp_eq_iff]
    | lt =>
      have hv : ¬ v1 = v2 := fun he => by
        simp [(versionCompare_eq_iff v1 v2).mpr he] at h
      simp [hv]
    | gt =>
      have hv : ¬ v1 = v2 := fun he => by
        simp [(versionCompare_eq_iff v1 v2).mpr he] at h
      simp [hv]

theorem cutCmp_refl (c : ECut) : cutCmp c c = .eq := (cutCmp_eq_iff c c).mpr rfl

theorem cutCmp_swap (c1 c2 : ECut) : cutCmp c2 c1 = (cutCmp c1 c2).swap := by
  cases c1 <;> cases c2 <;> try rfl
  rename_i v1 s1 v2 s2
  simp only [cutCmp]
  rw [versionCompare_swap v1 v2]
  cases h : versionCompare v1 v2 with
  | eq => exact boolCmp_swap s1 s2
  | lt => rfl
  | gt => rfl

theorem cutCmp_lt_trans {c1 c2 c3 : ECut} (h1 : cutCmp c1 c2 = .lt)
    (h2 : cutCmp c2 c3 = .lt) : cutCmp c1 c3 = .lt := by
  cases c1 <;> cases c2 <;> cases c3 <;> simp_all [cutCmp]
  rename_i v1 s1 v2 s2 v3 s3
  cases hab : versionCompare v1 v2 <;> rw [hab] at h1 <;> simp at h1 <;>
    cases hbc : versionCompare v2 v3 <;> rw [hbc] at h2 <;> simp at h2
  · rw [versionCompare_lt_trans hab hbc]
  · have hv : v2 = v3 := (versionCompare_eq_iff v2 v3).mp hbc
    rw [← hv, hab]
  · have hv : v1 = v2 := (versionCompare_eq_iff v1 v2).mp hab
    rw [hv, hbc]
  · have hv : v1 = v2 := (versionCompare_eq_iff v1 v2).mp hab
    rw [hv, hbc]
    simp
    cases s1 <;> cases s2 <;> cases s3 <;> simp_all [boolCmp]

/-- Strict order on cuts as a boolean test. -/
def cutLt (c1 c2 : ECut) : Bool :=
  match cutCmp c1 c2 with
  | .lt => true
  | _ => false

/-- Reflexive order on cuts as a boolean test. -/
def cutLe (c1 c2 : ECut) : Bool :=
  match cutCmp c1 c2 with
  | .gt => false
  | _ => true

theorem cutLt_iff (c1 c2 : ECut) : cutLt c1 c2 = true ↔ cutCmp c1 c2 = .lt := by
  unfold cutLt
  cases h : cutCmp c1 c2 <;> simp

theorem cutLe_iff (c1 c2 : ECut) : cutLe c1 c2 = true ↔ cutCmp c1 c2 ≠ .gt := by
  unfold cutLe
  cases h : cutCmp c1 c2 <;> simp

theorem cutLt_irrefl (c : ECut) : cutLt c c = false := by
  unfold cutLt
  rw [cutCmp_refl]

theorem cutLe_refl (c : ECut) : cutLe c c = true := by
  unfold cutLe
  rw [cutCmp_refl]

theorem cutLt_asymm {c1 c2 : ECut} (h : cutLt c1 c2 = true) : cutLt c2 c1 = false := by
  rw [cutLt_iff] at h
  unfold cutLt
  rw [cutCmp_swap, h]
  rfl

theorem cutLt_cutLe {c1 c2 : ECut} (h : cutLt c1 c2 = true) : cutLe c1 c2 = true := by
  rw [cutLt_iff] at h
  rw [cutLe_iff, h]
  simp

theorem cutLe_of_not_lt {c1 c2 : ECut} (h : cutLt c1 c2 = false) : cutLe c2 c1 = true := by
  rw [cutLe_iff]
  unfold cutLt at h
  rw [cutCmp_swap]
  cases hc : cutCmp c1 c2 <;> rw [hc] at h <;> simp_all [Ordering.swap]

theorem cutLt_of_not_le {c1 c2 : ECut} (h : cutLe c1 c2 = false) : cutLt c2 c1 = true := by
  rw [cutLt_iff]
  unfold cutLe at h
  rw [cutCmp_swap]
  cases hc : cutCmp c1 c2 <;> rw [hc] at h <;> simp_all [Ordering.swap]

theorem cutLt_trans {c1 c2 c3 : ECut} (h1 : cutLt c1 c2 = true)
    (h2 : cutLt c2 c3 = true) : cutLt c1 c3 = true := by
  rw [cutLt_iff] at *
  exact cutCmp_lt_trans h1 h2

theorem cutLe_antisymm {c1 c2 : ECut} (h1 : cutLe c1 c2 = true)
    (h2 : cutLe c2 c1 = true) : c1 = c2 := by
  rw [cutLe_iff] at *
  rw [cutCmp_swap] at h2
  rw [← cutCmp_eq_iff]
  cases hc : cutCmp c1 c2 <;> simp_all [Ordering.swap]

theorem cutLt_le_trans {c1 c2 c3 : ECut} (h1 : cutLt c1 c2 = true)
    (h2 : cutLe c2 c3 = true) : cutLt c1 c3 = true := by
  rw [cutLt_iff] at *
  rw [cutLe_iff] at h2
  cases hc : cutCmp c2 c3 with
  | lt => exact cutCmp_lt_trans h1 hc
  | eq => rw [← (cutCmp_eq_iff c2 c3).mp hc]; exact h1
  | gt => exact absurd hc h2

theorem cutLe_lt_trans {c1 c2 c3 : ECut} (h1 : cutLe c1 c2 = true)
    (h2 : cutLt c2 c3 = true) : cutLt c1 c3 = true := by
  rw [cutLt_iff] at *
  rw [cutLe_iff] at h1
  cases hc : cutCmp c1 c2 with
  | lt => exact cutCmp_lt_trans hc h2
  | eq => rw [(cutCmp_eq_iff c1 c2).mp hc]; exact h2
  | gt => exact absurd hc h1

theorem cutLe_trans {c1 c2 c3 : ECut} (h1 : cutLe c1 c2 = true)
    (h2 : cutLe c2 c3 = true) : cutLe c1 c3 = true := by
  cases hc : cutCmp c1 c2 with
  | lt => exact cutLt_cutLe (cutLt_le_trans ((cutLt_iff c1 c2).mpr hc) h2)
  | eq => rw [(cutCmp_eq_iff c1 c2).mp hc]; exact h2
  | gt => rw [cutLe_iff] at h1; exact absurd hc h1

theorem cutLe_total (c1 c2 : ECut) : cutLe c1 c2 = true ∨ cutLe c2 c1 = true := by
  cases hc : cutCmp c1 c2 with
  | lt => exact Or.inl (cutLt_cutLe ((cutLt_iff c1 c2).mpr hc))
  | eq => rw [(cutCmp_eq_iff c1 c2).mp hc]; exact Or.inl (cutLe_refl c2)
  | gt =>
    right
    rw [cutLe_iff, cutCmp_swap, hc]
    simp [Ordering.swap]

/-- Interval bound of a version range. Modelled from the spec data model:
each bound has an optional lower and upper endpoint, every endpoint being a
version together with an inclusivity flag; a missing endpoint means
unbounded on that side. -/
structure Bound where
  lower : Option (Version × Bool)
  upper : Option (Version × Bool)
deriving DecidableEq

/-- Cut of a lower endpoint: an inclusive lower endpoint starts just before
its version, an exclusive one just after; absent means unbounded below. -/
def lowCut : Option (Version × Bool) → ECut
  | none => .negInf
  | some (v, incl) => .mid v (!incl)

/-- Cut of an upper endpoint: an inclusive upper endpoint ends just after
its version, an exclusive one just before; absent means unbounded above. -/
def upCut : Option (Version × Bool) → ECut
  | none => .posInf
  | some (v, incl) => .mid v incl

/-- Cut sitting just after a version, used to test membership of the version
against endpoint cuts. -/
def ptCut (v : Version) : ECut := .mid v true

theorem lowCut_inj {l1 l2 : Option (Version × Bool)} (h : lowCut l1 = lowCut l2) :
    l1 = l2 := by
  cases l1 with
  | none => cases l2 with
    | none => rfl
    | some p => cases p; simp [lowCut] at h
  | some p =>
    cases p
    cases l2 with
    | none => simp [lowCut] at h
    | some q =>
      cases q
      simp [lowCut] at h
      simp [h.1]
      rcases h with ⟨-, h2⟩
      rename_i b1 _ b2
      cases b1 <;> cases b2 <;> simp_all

theorem upCut_inj {u1 u2 : Option (Version × Bool)} (h : upCut u1 = upCut u2) :
    u1 = u2 := by
  cases u1 with
  | none => cases u2 with
    | none => rfl
    | some p => cases p; simp [upCut] at h
  | some p =>
    cases p
    cases u2 with
    | none => simp [upCut] at h
    | some q =>
      cases q
      simp [upCut] at h
      simp [h.1, h.2]

/-- Structural non-emptiness of a bound: its lower cut lies strictly below
its upper cut. -/
def nonEmptyB (b : Bound) : Bool := cutLt (lowCut b.lower) (upCut b.upper)

/-- Membership of a version in a bound, through endpoint cuts. -/
def containsB (b : Bound) (v : Version) : Bool :=
  cutLt (lowCut b.lower) (ptCut v) && cutLe (ptCut v) (upCut b.upper)

/-- VersionRange: list of bound intervals. Modelled from the spec data
model; the canonical invariant canonR states the list is sorted,
non-overlapping and has no two adjacent touching bounds unmerged. -/
abbrev VRange := List Bound

/-- Test that a cut lies strictly below the lower cut of the first bound of
a range (vacuously true for the empty range). -/
def headGT (c : ECut) : List Bound → Bool
  | [] => true
  | b :: _ => cutLt c (lowCut b.lower)

/-- Canonical-range invariant of the spec: all bounds non-empty, sorted, and
every adjacent pair strictly separated by a gap (touching bounds merged). -/
def canonR : List Bound → Bool
  | [] => true
  | b :: t => nonEmptyB b && headGT (upCut b.upper) t && canonR t

/-- Membership of a version in a range: membership in any of its bounds.
Modelled from the spec contract contains(range, version). -/
def containsR (r : VRange) (v : Version) : Bool := r.any (fun b => containsB b v)

/-- Upper endpoint comparison steering the intersection sweep. -/
def maxLow (l1 l2 : Option (Version × Bool)) : Option (Version × Bool) :=
  if cutLt (lowCut l1) (lowCut l2) then l2 else l1

def minUp (u1 u2 : Option (Version × Bool)) : Option (Version × Bool) :=
  if cutLt (upCut u2) (upCut u1) then u2 else u1

/-- Intersection of two single bounds: greatest lower endpoint with least
upper endpoint. -/
def boundIntersect (b1 b2 : Bound) : Bound :=
  ⟨maxLow b1.lower b2.lower, minUp b1.upper b2.upper⟩

/-- Intersection of two canonical ranges by a two-pointer sweep over their
bounds: intersect the heads, then advance past whichever bound ends first.
Modelled from the spec contract intersect(r1, r2), which never fails and may
return the empty range. -/
def isect : VRange → VRange → VRange
  | [], _ => []
  | _ :: _, [] => []
  | b1 :: t1, b2 :: t2 =>
    let b := boundIntersect b1 b2
    let rest :=
      match cutCmp (upCut b1.upper) (upCut b2.upper) with
      | .lt => isect t1 (b2 :: t2)
      | .gt => isect (b1 :: t1) t2
      | .eq => isect t1 t2
    if nonEmptyB b then b :: rest else rest
termination_by r1 r2 => r1.length + r2.length
decreasing_by all_goals (simp [List.length_cons]; try omega)

/-- Unbounded range matching every version, the textual any range. -/
def anyR : VRange := [⟨none, none⟩]

theorem lowCut_maxLow (l1 l2 : Option (Version × Bool)) :
    lowCut (maxLow l1 l2) = if cutLt (lowCut l1) (lowCut l2) then lowCut l2 else lowCut l1 := by
  unfold maxLow
  split <;> rfl

theorem upCut_minUp (u1 u2 : Option (Version × Bool)) :
    upCut (minUp u1 u2) = if cutLt (upCut u2) (upCut u1) then upCut u2 else upCut u1 := by
  unfold minUp
  split <;> rfl

theorem maxLow_self (l : Option (Version × Bool)) : maxLow l l = l := by
  unfold maxLow
  rw [cutLt_irrefl]
  simp

theorem minUp_self (u : Option (Version × Bool)) : minUp u u = u := by
  unfold minUp
  rw [cutLt_irrefl]
  simp

theorem maxLow_comm (l1 l2 : Option (Version × Bool)) : maxLow l1 l2 = maxLow l2 l1 := by
  unfold maxLow
  cases hc : cutCmp (lowCut l1) (lowCut l2) with
  | lt =>
    have h1 : cutLt (lowCut l1) (lowCut l2) = true := (cutLt_iff _ _).mpr hc
    rw [h1, cutLt_asymm h1]
    simp
  | eq =>
    have he : lowCut l1 = lowCut l2 := (cutCmp_eq_iff _ _).mp hc
    have := lowCut_inj he
    simp [this]
  | gt =>
    have hc2 : cutCmp (lowCut l2) (lowCut l1) = .lt := by
      rw [cutCmp_swap, hc]; rfl
    have h2 : cutLt (lowCut l2) (lowCut l1) = true := (cutLt_iff _ _).mpr hc2
    rw [h2, cutLt_asymm h2]
    simp

theorem minUp_comm (u1 u2 : Option (Version × Bool)) : minUp u1 u2 = minUp u2 u1 := by
  unfold minUp
  cases hc : cutCmp (upCut u1) (upCut u2) with
  | lt =>
    have h1 : cutLt (upCut u1) (upCut u2) = true := (cutLt_iff _ _).mpr hc
    rw [h1, cutLt_asymm h1]
    simp
  | eq =>
    have he : upCut u1 = upCut u2 := (cutCmp_eq_iff _ _).mp hc
    have := upCut_inj he
    simp [this]
  | gt =>
    have hc2 : cutCmp (upCut u2) (upCut u1) = .lt := by
      rw [cutCmp_swap, hc]; rfl
    have h2 : cutLt (upCut u2) (upCut u1) = true := (cutLt_iff _ _).mpr hc2
    rw [h2, cutLt_asymm h2]
    simp

theorem boundIntersect_self (b : Bound) : boundIntersect b b = b := by
  unfold boundIntersect
  rw [maxLow_self, minUp_self]

theorem boundIntersect_comm (b1 b2 : Bound) :
    boundIntersect b1 b2 = boundIntersect b2 b1 := by
  unfold boundIntersect
  rw [maxLow_comm, minUp_comm]

theorem cutLe_maxLow_left (l1 l2 : Option (Version × Bool)) :
    cutLe (lowCut l1) (lowCut (maxLow l1 l2)) = true := by
  unfold maxLow
  split
  · exact cutLt_cutLe (by assumption)
  · exact cutLe_refl _

theorem cutLe_maxLow_right (l1 l2 : Option (Version × Bool)) :
    cutLe (lowCut l2) (lowCut (maxLow l1 l2)) = true := by
  unfold maxLow
  split
  · exact cutLe_refl _
  · exact cutLe_of_not_lt (by simp_all)

theorem minUp_left {u1 u2 : Option (Version × Bool)}
    (h : cutLt (upCut u2) (upCut u1) = false) : minUp u1 u2 = u1 := by
  unfold minUp
  rw [h]
  simp

theorem minUp_right {u1 u2 : Option (Version × Bool)}
    (h : cutLt (upCut u2) (upCut u1) = true) : minUp u1 u2 = u2 := by
  unfold minUp
  rw [h]
  simp

theorem not_lt_of_cutCmp_le {c1 c2 : ECut}
    (h : cutCmp c1 c2 = .lt ∨ cutCmp c1 c2 = .eq) : cutLt c2 c1 = false := by
  unfold cutLt
  rw [cutCmp_swap]
  rcases h with h | h <;> rw [h] <;> rfl

theorem isect_comm : ∀ r1 r2, isect r1 r2 = isect r2 r1 := by
  intro r1 r2
  induction r1, r2 using isect.induct with
  | case1 r => cases r <;> simp [isect]
  | case2 b t => simp [isect]
  | case3 b1 t1 b2 t2 b hne ih_lt ih_gt ih_eq =>
    rw [isect, isect]
    have hsw := cutCmp_swap (upCut b1.upper) (upCut b2.upper)
    cases hc : cutCmp (upCut b1.upper) (upCut b2.upper) with
    | lt =>
      rw [hc] at hsw
      simp only [Ordering.swap] at hsw
      simp only [hc, hsw, boundIntersect_comm b2 b1, ih_lt]
    | eq =>
      rw [hc] at hsw
      simp only [Ordering.swap] at hsw
      simp only [hc, hsw, boundIntersect_comm b2 b1, ih_eq]
    | gt =>
      rw [hc] at hsw
      simp only [Ordering.swap] at hsw
      simp only [hc, hsw, boundIntersect_comm b2 b1, ih_gt]
  | case4 b1 t1 b2 t2 b hne ih_lt ih_gt ih_eq =>
    rw [isect, isect]
    have hsw := cutCmp_swap (upCut b1.upper) (upCut b2.upper)
    cases hc : cutCmp (upCut b1.upper) (upCut b2.upper) with
    | lt =>
      rw [hc] at hsw
      simp only [Ordering.swap] at hsw
      simp only [hc, hsw, boundIntersect_comm b2 b1, ih_lt]
    | eq =>
      rw [hc] at hsw
      simp only [Ordering.swap] at hsw
      simp only [hc, hsw, boundIntersect_comm b2 b1, ih_eq]
    | gt =>
      rw [hc] at hsw
      simp only [Ordering.swap] at hsw
      simp only [hc, hsw, boundIntersect_comm b2 b1, ih_gt]

theorem maxLow_none_left (l : Option (Version × Bool)) : maxLow none l = l := by
  cases l with
  | none => rfl
  | some p => cases p; rfl

theorem minUp_none_left (u : Option (Version × Bool)) : minUp none u = u := by
  cases u with
  | none => rfl
  | some p => cases p; rfl

theorem isect_self : ∀ r, canonR r = true → isect r r = r
  | [] => by intro h; simp [isect]
  | b :: t => by
    intro h
    simp only [canonR, Bool.and_eq_true] at h
    obtain ⟨⟨hne, _⟩, ht⟩ := h
    rw [isect]
    rw [cutCmp_refl]
    simp only [boundIntersect_self, hne, if_true]
    rw [isect_self t ht]

theorem cutLt_posInf_false (c : ECut) : cutLt ECut.posInf c = false := by
  cases c <;> rfl

theorem isect_any_left : ∀ r, canonR r = true → isect anyR r = r
  | [] => by intro h; simp [isect, anyR]
  | b :: t => by
    intro h
    simp only [canonR, Bool.and_eq_true] at h
    obtain ⟨⟨hne, hsep⟩, ht⟩ := h
    simp only [anyR]
    rw [isect]
    have hbi : boundIntersect ⟨none, none⟩ b = b := by
      unfold boundIntersect
      rw [maxLow_none_left, minUp_none_left]
    cases hu : b.upper with
    | none =>
      cases t with
      | nil =>
        rw [hbi]
        simp [hne, upCut, cutCmp, isect]
      | cons b' t' =>
        exfalso
        rw [hu] at hsep
        simp only [headGT, upCut] at hsep
        rw [cutLt_posInf_false] at hsep
        exact Bool.false_ne_true hsep
    | some p =>
      obtain ⟨pv, pb⟩ := p
      have hrec := isect_any_left t ht
      simp only [anyR] at hrec
      rw [hbi]
      simp [hne, upCut, cutCmp, hrec]

theorem isect_any_right (r : VRange) (h : canonR r = true) : isect r anyR = r := by
  rw [isect_comm]
  exact isect_any_left r h

theorem headGT_weaken {b : Bound} {t : List Bound} {c : ECut}
    (hne : nonEmptyB b = true) (hsep : headGT (upCut b.upper) t = true)
    (hcc : cutLt c (lowCut b.lower) = true) : headGT c t = true := by
  cases t with
  | nil => rfl
  | cons b' t' =>
    simp only [headGT] at *
    exact cutLt_trans hcc (cutLt_trans hne hsep)

theorem isect_canon_aux : ∀ r1 r2, canonR r1 = true → canonR r2 = true →
    canonR (isect r1 r2) = true ∧
    (∀ c, headGT c r1 = true → headGT c (isect r1 r2) = true) ∧
    (∀ c, headGT c r2 = true → headGT c (isect r1 r2) = true) := by
  intro r1 r2
  induction r1, r2 using isect.induct with
  | case1 r => intro h1 h2; simp [isect, headGT, canonR]
  | case2 b t => intro h1 h2; simp [isect, headGT, canonR]
  | case3 b1 t1 b2 t2 b hne ih_lt ih_gt ih_eq =>
    intro h1 h2
    have h1' := h1
    have h2' := h2
    simp only [canonR, Bool.and_eq_true] at h1' h2'
    obtain ⟨⟨hne1, hsep1⟩, hct1⟩ := h1'
    obtain ⟨⟨hne2, hsep2⟩, hct2⟩ := h2'
    rw [isect]
    cases hc : cutCmp (upCut b1.upper) (upCut b2.upper) with
    | lt =>
      obtain ⟨ih_c, ih_g1, ih_g2⟩ := ih_lt hct1 h2
      have hup : (boundIntersect b1 b2).upper = b1.upper :=
        minUp_left (not_lt_of_cutCmp_le (Or.inl hc))
      simp only [hne, if_true]
      refine ⟨?_, ?_, ?_⟩
      · simp only [canonR, Bool.and_eq_true, hne, hup, ih_c]
        exact ⟨⟨trivial, ih_g1 _ hsep1⟩, trivial⟩
      · intro c hcc
        simp only [headGT] at hcc ⊢
        exact cutLt_le_trans hcc (cutLe_maxLow_left _ _)
      · intro c hcc
        simp only [headGT] at hcc ⊢
        exact cutLt_le_trans hcc (cutLe_maxLow_right _ _)
    | eq =>
      obtain ⟨ih_c, ih_g1, ih_g2⟩ := ih_eq hct1 hct2
      have hup : (boundIntersect b1 b2).upper = b1.upper :=
        minUp_left (not_lt_of_cutCmp_le (Or.inr hc))
      simp only [hne, if_true]
      refine ⟨?_, ?_, ?_⟩
      · simp only [canonR, Bool.and_eq_true, hne, hup, ih_c]
        exact ⟨⟨trivial, ih_g1 _ hsep1⟩, trivial⟩
      · intro c hcc
        simp only [headGT] at hcc ⊢
        exact cutLt_le_trans hcc (cutLe_maxLow_left _ _)
      · intro c hcc
        simp only [headGT] at hcc ⊢
        exact cutLt_le_trans hcc (cutLe_maxLow_right _ _)
    | gt =>
      obtain ⟨ih_c, ih_g1, ih_g2⟩ := ih_gt h1 hct2
      have hlt : cutLt (upCut b2.upper) (upCut b1.upper) = true := by
        rw [cutLt_iff, cutCmp_swap, hc]
        rfl
      have hup : (boundIntersect b1 b2).upper = b2.upper := minUp_right hlt
      simp only [hne, if_true]
      refine ⟨?_, ?_, ?_⟩
      · simp only [canonR, Bool.and_eq_true, hne, hup, ih_c]
        exact ⟨⟨trivial, ih_g2 _ hsep2⟩, trivial⟩
      · intro c hcc
        simp only [headGT] at hcc ⊢
        exact cutLt_le_trans hcc (cutLe_maxLow_left _ _)
      · intro c hcc
        simp only [headGT] at hcc ⊢
        exact cutLt_le_trans hcc (cutLe_maxLow_right _ _)
  | case4 b1 t1 b2 t2 b hne ih_lt ih_gt ih_eq =>
    intro h1 h2
    have h1' := h1
    have h2' := h2
    simp only [canonR, Bool.and_eq_true] at h1' h2'
    obtain ⟨⟨hne1, hsep1⟩, hct1⟩ := h1'
    obtain ⟨⟨hne2, hsep2⟩, hct2⟩ := h2'
    have hnef : nonEmptyB (boundIntersect b1 b2) = false := by
      simp_all
    rw [isect]
    cases hc : cutCmp (upCut b1.upper) (upCut b2.upper) with
    | lt =>
      obtain ⟨ih_c, ih_g1, ih_g2⟩ := ih_lt hct1 h2
      simp only [hnef, Bool.false_eq_true, if_false]
      refine ⟨ih_c, ?_, ?_⟩
      · intro c hcc
        simp only [headGT] at hcc
        exact ih_g1 c (headGT_weaken hne1 hsep1 hcc)
      · intro c hcc
        exact ih_g2 c hcc
    | eq =>
      obtain ⟨ih_c, ih_g1, ih_g2⟩ := ih_eq hct1 hct2
      simp only [hnef, Bool.false_eq_true, if_false]
      refine ⟨ih_c, ?_, ?_⟩
      · intro c hcc
        simp only [headGT] at hcc
        exact ih_g1 c (headGT_weaken hne1 hsep1 hcc)
      · intro c hcc
        simp only [headGT] at hcc
        exact ih_g2 c (headGT_weaken hne2 hsep2 hcc)
    | gt =>
      obtain ⟨ih_c, ih_g1, ih_g2⟩ := ih_gt h1 hct2
      simp only [hnef, Bool.false_eq_true, if_false]
      refine ⟨ih_c, ?_, ?_⟩
      · intro c hcc
        exact ih_g1 c hcc
      · intro c hcc
        simp only [headGT] at hcc
        exact ih_g2 c (headGT_weaken hne2 hsep2 hcc)

theorem isect_canon {r1 r2 : VRange} (h1 : canonR r1 = true)
    (h2 : canonR r2 = true) : canonR (isect r1 r2) = true :=
  (isect_canon_aux r1 r2 h1 h2).1

theorem cutLt_max (a b p : ECut) :
    cutLt (if cutLt a b then b else a) p = (cutLt a p && cutLt b p) := by
  cases hab : cutLt a b with
  | true =>
    simp only [if_true]
    cases hbp : cutLt b p with
    | true => simp [cutLt_trans hab hbp]
    | false => simp
  | false =>
    simp only [Bool.false_eq_true, if_false]
    cases hap : cutLt a p with
    | true => simp [cutLe_lt_trans (cutLe_of_not_lt hab) hap]
    | false => simp
  
theorem cutLe_min (a b p : ECut) :
    cutLe p (if cutLt b a then b else a) = (cutLe p a && cutLe p b) := by
  cases hba : cutLt b a with
  | true =>
    simp only [if_true]
    cases hpb : cutLe p b with
    | true => simp [hpb, cutLt_cutLe (cutLe_lt_trans hpb hba)]
    | false => simp [hpb]
  | false =>
    simp only [Bool.false_eq_true, if_false]
    cases hpa : cutLe p a with
    | true => simp [hpa, cutLe_trans hpa (cutLe_of_not_lt hba)]
    | false => simp [hpa]

theorem containsB_boundIntersect (b1 b2 : Bound) (v : Version) :
    containsB (boundIntersect b1 b2) v = (containsB b1 v && containsB b2 v) := by
  unfold containsB boundIntersect
  simp only
  rw [lowCut_maxLow, upCut_minUp, cutLt_max, cutLe_min]
  generalize cutLt (lowCut b1.lower) (ptCut v) = a
  generalize cutLt (lowCut b2.lower) (ptCut v) = b
  generalize cutLe (ptCut v) (upCut b1.upper) = c
  generalize cutLe (ptCut v) (upCut b2.upper) = d
  cases a <;> cases b <;> cases c <;> cases d <;> rfl

theorem containsB_of_nonEmpty_false {b : Bound} {v : Version}
    (h : nonEmptyB b = false) : containsB b v = false := by
  cases hcb : containsB b v with
  | false => rfl
  | true =>
    exfalso
    unfold containsB at hcb
    rw [Bool.and_eq_true] at hcb
    have := cutLt_le_trans hcb.1 hcb.2
    unfold nonEmptyB at h
    rw [this] at h
    simp at h

theorem containsR_cons (b : Bound) (t : List Bound) (v : Version) :
    containsR (b :: t) v = (containsB b v || containsR t v) := by
  simp [containsR]

theorem containsR_lt_head : ∀ {b : Bound} {t : List Bound} {v : Version},
    canonR (b :: t) = true → containsR t v = true →
    cutLt (upCut b.upper) (ptCut v) = true := by
  intro b t
  induction t generalizing b with
  | nil => intro v h hc; simp [containsR] at hc
  | cons b' t' ih =>
    intro v h hc
    rw [canonR, Bool.and_eq_true, Bool.and_eq_true] at h
    obtain ⟨⟨hne, hsep⟩, hct⟩ := h
    rw [headGT] at hsep
    rw [containsR_cons, Bool.or_eq_true] at hc
    cases hc with
    | inl hcb =>
      unfold containsB at hcb
      rw [Bool.and_eq_true] at hcb
      exact cutLt_trans hsep hcb.1
    | inr hcr =>
      have hct' := hct
      rw [canonR, Bool.and_eq_true, Bool.and_eq_true] at hct'
      exact cutLt_trans hsep (cutLt_trans hct'.1.1 (ih hct hcr))

theorem contains_excl {v : Version} {b1 bb : Bound} {tt : List Bound}
    (hcan : canonR (bb :: tt) = true)
    (hle : cutLe (upCut b1.upper) (upCut bb.upper) = true) :
    (containsB b1 v && containsR tt v) = false := by
  cases hb : containsB b1 v with
  | false => simp
  | true =>
    cases ht : containsR tt v with
    | false => simp
    | true =>
      exfalso
      have hgt := containsR_lt_head hcan ht
      unfold containsB at hb
      rw [Bool.and_eq_true] at hb
      have h1 : cutLt (upCut bb.upper) (upCut bb.upper) = true :=
        cutLt_le_trans (cutLt_le_trans hgt hb.2) hle
      rw [cutLt_irrefl] at h1
      simp at h1

theorem isect_contains : ∀ r1 r2, canonR r1 = true → canonR r2 = true →
    ∀ v, containsR (isect r1 r2) v = (containsR r1 v && containsR r2 v) := by
  intro r1 r2
  induction r1, r2 using isect.induct with
  | case1 r => intro h1 h2 v; simp [isect, containsR]
  | case2 b t => intro h1 h2 v; simp [isect, containsR]
  | case3 b1 t1 b2 t2 b hne ih_lt ih_gt ih_eq =>
    intro h1 h2 v
    have h1' := h1
    have h2' := h2
    rw [canonR, Bool.and_eq_true, Bool.and_eq_true] at h1' h2'
    obtain ⟨⟨hne1, hsep1⟩, hct1⟩ := h1'
    obtain ⟨⟨hne2, hsep2⟩, hct2⟩ := h2'
    rw [isect]
    rw [containsR_cons b1 t1 v, containsR_cons b2 t2 v]
    cases hc : cutCmp (upCut b1.upper) (upCut b2.upper) with
    | lt =>
      have hx : (containsB b1 v && containsR t2 v) = false :=
        contains_excl h2 (cutLt_cutLe ((cutLt_iff _ _).mpr hc))
      simp only [hne, if_true]
      rw [containsR_cons, containsB_boundIntersect, ih_lt hct1 h2 v,
        containsR_cons b2 t2 v]
      cases hb1 : containsB b1 v <;> cases hb2 : containsB b2 v <;>
        cases ht1 : containsR t1 v <;> cases ht2 : containsR t2 v <;> simp_all
    | eq =>
      have hee : upCut b1.upper = upCut b2.upper := (cutCmp_eq_iff _ _).mp hc
      have hx1 : (containsB b1 v && containsR t2 v) = false :=
        contains_excl h2 (by rw [hee]; exact cutLe_refl _)
      have hx2 : (containsB b2 v && containsR t1 v) = false :=
        contains_excl h1 (by rw [hee]; exact cutLe_refl _)
      simp only [hne, if_true]
      rw [containsR_cons, containsB_boundIntersect, ih_eq hct1 hct2 v]
      cases hb1 : containsB b1 v <;> cases hb2 : containsB b2 v <;>
        cases ht1 : containsR t1 v <;> cases ht2 : containsR t2 v <;> simp_all
    | gt =>
      have hle : cutLe (upCut b2.upper) (upCut b1.upper) = true := by
        rw [cutLe_iff, cutCmp_swap, hc]
        simp [Ordering.swap]
      have hx : (containsB b2 v && containsR t1 v) = false := contains_excl h1 hle
      simp only [hne, if_true]
      rw [containsR_cons, containsB_boundIntersect, ih_gt h1 hct2 v,
        containsR_cons b1 t1 v]
      cases hb1 : containsB b1 v <;> cases hb2 : containsB b2 v <;>
        cases ht1 : containsR t1 v <;> cases ht2 : containsR t2 v <;> simp_all
  | case4 b1 t1 b2 t2 b hne ih_lt ih_gt ih_eq =>
    intro h1 h2 v
    have h1' := h1
    have h2' := h2
    rw [canonR, Bool.and_eq_true, Bool.and_eq_true] at h1' h2'
    obtain ⟨⟨hne1, hsep1⟩, hct1⟩ := h1'
    obtain ⟨⟨hne2, hsep2⟩, hct2⟩ := h2'
    have hnef : nonEmptyB (boundIntersect b1 b2) = false := by simp_all
    have hbb : (containsB b1 v && containsB b2 v) = false := by
      rw [← containsB_boundIntersect]
      exact containsB_of_nonEmpty_false hnef
    rw [isect]
    rw [containsR_cons b1 t1 v, containsR_cons b2 t2 v]
    cases hc : cutCmp (upCut b1.upper) (upCut b2.upper) with
    | lt =>
      have hx : (containsB b1 v && containsR t2 v) = false :=
        contains_excl h2 (cutLt_cutLe ((cutLt_iff _ _).mpr hc))
      simp only [hnef, Bool.false_eq_true, if_false]
      rw [ih_lt hct1 h2 v, containsR_cons b2 t2 v]
      cases hb1 : containsB b1 v <;> cases hb2 : containsB b2 v <;>
        cases ht1 : containsR t1 v <;> cases ht2 : containsR t2 v <;> simp_all
    | eq =>
      have hee : upCut b1.upper = upCut b2.upper := (cutCmp_eq_iff _ _).mp hc
      have hx1 : (containsB b1 v && containsR t2 v) = false :=
        contains_excl h2 (by rw [hee]; exact cutLe_refl _)
      have hx2 : (containsB b2 v && containsR t1 v) = false :=
        contains_excl h1 (by rw [hee]; exact cutLe_refl _)
      simp only [hnef, Bool.false_eq_true, if_false]
      rw [ih_eq hct1 hct2 v]
      cases hb1 : containsB b1 v <;> cases hb2 : containsB b2 v <;>
        cases ht1 : containsR t1 v <;> cases ht2 : containsR t2 v <;> simp_all
    | gt =>
      have hle : cutLe (upCut b2.upper) (upCut b1.upper) = true := by
        rw [cutLe_iff, cutCmp_swap, hc]
        simp [Ordering.swap]
      have hx : (containsB b2 v && containsR t1 v) = false := contains_excl h1 hle
      simp only [hnef, Bool.false_eq_true, if_false]
      rw [ih_gt h1 hct2 v, containsR_cons b1 t1 v]
      cases hb1 : containsB b1 v <;> cases hb2 : containsB b2 v <;>
        cases ht1 : containsR t1 v <;> cases ht2 : containsR t2 v <;> simp_all

/-- Least of two lower endpoints, by cut order. -/
def minLow (l1 l2 : Option (Version × Bool)) : Option (Version × Bool) :=
  if cutLt (lowCut l2) (lowCut l1) then l2 else l1

/-- Greatest of two upper endpoints, by cut order. -/
def maxUp (u1 u2 : Option (Version × Bool)) : Option (Version × Bool) :=
  if cutLt (upCut u1) (upCut u2) then u2 else u1

theorem cutLe_minLow_left (l1 l2 : Option (Version × Bool)) :
    cutLe (lowCut (minLow l1 l2)) (lowCut l1) = true := by
  unfold minLow
  split
  · exact cutLt_cutLe (by assumption)
  · exact cutLe_refl _

theorem cutLe_minLow_right (l1 l2 : Option (Version × Bool)) :
    cutLe (lowCut (minLow l1 l2)) (lowCut l2) = true := by
  unfold minLow
  split
  · exact cutLe_refl _
  · exact cutLe_of_not_lt (by simp_all)

theorem cutLe_maxUp_left (u1 u2 : Option (Version × Bool)) :
    cutLe (upCut u1) (upCut (maxUp u1 u2)) = true := by
  unfold maxUp
  split
  · exact cutLt_cutLe (by assumption)
  · exact cutLe_refl _

theorem cutLe_maxUp_right (u1 u2 : Option (Version × Bool)) :
    cutLe (upCut u2) (upCut (maxUp u1 u2)) = true := by
  unfold maxUp
  split
  · exact cutLe_refl _
  · exact cutLe_of_not_lt (by simp_all)

/-- Insertion of one non-empty bound into a canonical range, merging any
bounds it overlaps or touches. The building block of range union. -/
def insertB (b : Bound) : List Bound → List Bound
  | [] => [b]
  | b' :: t =>
    if cutLt (upCut b.upper) (lowCut b'.lower) then
      b :: b' :: t
    else if cutLt (upCut b'.upper) (lowCut b.lower) then
      b' :: insertB b t
    else
      insertB ⟨minLow b.lower b'.lower, maxUp b.upper b'.upper⟩ t

/-- Union of two canonical ranges: insert every bound of the second into the
first. Modelled from the spec: VersionRange supports union; the result is
canonical again. -/
def runion (r1 r2 : List Bound) : List Bound :=
  r2.foldl (fun acc b => insertB b acc) r1

theorem insertB_canon : ∀ (r : List Bound) (b : Bound), nonEmptyB b = true →
    canonR r = true →
    canonR (insertB b r) = true ∧
    (∀ c, cutLt c (lowCut b.lower) = true → headGT c r = true →
      headGT c (insertB b r) = true) := by
  intro r
  induction r with
  | nil =>
    intro b hne hc
    refine ⟨?_, ?_⟩
    · simp [insertB, canonR, headGT, hne]
    · intro c hcb hg
      simpa [insertB, headGT] using hcb
  | cons b' t ih =>
    intro b hne hc
    have hc' := hc
    rw [canonR, Bool.and_eq_true, Bool.and_eq_true] at hc'
    obtain ⟨⟨hne', hsep'⟩, hct⟩ := hc'
    rw [insertB]
    cases h1 : cutLt (upCut b.upper) (lowCut b'.lower) with
    | true =>
      simp only [if_true]
      refine ⟨?_, ?_⟩
      · rw [canonR, Bool.and_eq_true, Bool.and_eq_true]
        exact ⟨⟨hne, by rw [headGT]; exact h1⟩, hc⟩
      · intro c hcb hg
        rw [headGT]
        exact hcb
    | false =>
      simp only [Bool.false_eq_true, if_false]
      cases h2 : cutLt (upCut b'.upper) (lowCut b.lower) with
      | true =>
        simp only [if_true]
        obtain ⟨ihc, ihg⟩ := ih b hne hct
        refine ⟨?_, ?_⟩
        · rw [canonR, Bool.and_eq_true, Bool.and_eq_true]
          exact ⟨⟨hne', ihg _ h2 hsep'⟩, ihc⟩
        · intro c hcb hg
          rw [headGT]
          rw [headGT] at hg
          exact hg
      | false =>
        simp only [Bool.false_eq_true, if_false]
        have hnem : nonEmptyB ⟨minLow b.lower b'.lower, maxUp b.upper b'.upper⟩ = true := by
          unfold nonEmptyB at hne ⊢
          simp only
          exact cutLt_le_trans
            (cutLe_lt_trans (cutLe_minLow_left _ _) hne) (cutLe_maxUp_left _ _)
        obtain ⟨ihc, ihg⟩ := ih _ hnem hct
        refine ⟨ihc, ?_⟩
        · intro c hcb hg
          rw [headGT] at hg
          refine ihg c ?_ (headGT_weaken hne' hsep' hg)
          simp only
          unfold minLow
          split
          · exact hg
          · exact hcb

theorem canonR_cons_elim {b : Bound} {t : List Bound} (h : canonR (b :: t) = true) :
    nonEmptyB b = true ∧ headGT (upCut b.upper) t = true ∧ canonR t = true := by
  rw [canonR, Bool.and_eq_true, Bool.and_eq_true] at h
  exact ⟨h.1.1, h.1.2, h.2⟩

theorem runion_canon : ∀ (r2 r1 : List Bound), canonR r1 = true →
    canonR r2 = true → canonR (runion r1 r2) = true := by
  intro r2
  induction r2 with
  | nil => intro r1 h1 h2; exact h1
  | cons b t ih =>
    intro r1 h1 h2
    obtain ⟨hne, _, hct⟩ := canonR_cons_elim h2
    have : runion r1 (b :: t) = runion (insertB b r1) t := rfl
    rw [this]
    exact ih (insertB b r1) ((insertB_canon r1 b hne h1).1) hct

/-- Numeric value of a digit string. -/
def digitsToNat (s : List Char) : Nat :=
  s.foldl (fun n c => n * 10 + (c.toNat - 48)) 0

/-- Parse one version token: a nonempty run of digits is a numeric token, a
nonempty run of letters an alphabetic token. Modelled from the spec data
model of Version. -/
def parseToken (s : List Char) : Option Token :=
  if !s.isEmpty && s.all Char.isDigit then some (.num (digitsToNat s))
  else if !s.isEmpty && s.all Char.isAlpha then some (.alpha s)
  else none

/-- Split a character list at dots, keeping empty pieces. -/
def splitDots : List Char → List Char → List (List Char)
  | [], acc => [acc.reverse]
  | c :: rest, acc =>
    if c = '.' then acc.reverse :: splitDots rest []
    else splitDots rest (c :: acc)

/-- Parse each token piece, failing if any piece is malformed. -/
def parseTokens : List (List Char) → Option (List Token)
  | [] => some []
  | t :: ts =>
    match parseToken t, parseTokens ts with
    | some tok, some toks => some (tok :: toks)
    | _, _ => none

/-- Parse a version string: dot-separated alphanumeric tokens. Modelled from
the spec: a version is an ordered sequence of alphanumeric tokens. -/
def parseVersion (s : List Char) : Option Version :=
  parseTokens (splitDots s [])

/-- Parse one range alternative. Modelled from the spec: ranges support
single versions, bounded intervals, unbounded intervals and the any range.
The forms are the empty string (any), a version v (exactly v), v followed by
a plus (v and above), a less-than sign followed by w (below w), and
v plus-less-than w (at least v and below w). -/
def parseAltCore (pre suf : List Char) : Option (List Bound) :=
  match suf with
  | [] => (parseVersion pre).map (fun v => [⟨some (v, true), some (v, true)⟩])
  | ['+'] => (parseVersion pre).map (fun v => [⟨some (v, true), none⟩])
  | '+' :: '<' :: w =>
    match parseVersion pre, parseVersion w with
    | some v, some wv =>
      some (if nonEmptyB ⟨some (v, true), some (wv, false)⟩ = true
            then [⟨some (v, true), some (wv, false)⟩] else [])
    | _, _ => none
  | _ => none

/-- Parse one range alternative; general forms are split at the first plus
sign and handled by parseAltCore. -/
def parseAlt (a : List Char) : Option (List Bound) :=
  if a.isEmpty then some anyR
  else
    match a with
    | '<' :: rest => (parseVersion rest).map (fun w => [⟨none, some (w, false)⟩])
    | _ => parseAltCore (a.takeWhile (fun c => c ≠ '+')) (a.dropWhile (fun c => c ≠ '+'))

/-- Error raised on a malformed range string: the offending alternative text
and its position in the input. Modelled from the spec error taxonomy:
MalformedRangeError names the offending text and position. -/
structure MalformedRangeError where
  pos : Nat
  text : List Char
deriving DecidableEq

/-- Split a range string at pipe characters, recording the starting position
of each alternative. The second accumulator holds the current alternative
reversed. -/
def splitAlts : List Char → Nat → List Char → List (Nat × List Char)
  | [], start, acc => [(start, acc.reverse)]
  | c :: rest, start, acc =>
    if c = '|' then
      (start, acc.reverse) :: splitAlts rest (start + acc.length + 1) []
    else splitAlts rest start (c :: acc)

/-- Parse a list of positioned alternatives, reporting the first malformed
alternative and otherwise building the union of all alternatives. -/
def parseAlts : List (Nat × List Char) → Except MalformedRangeError (List Bound)
  | [] => .ok []
  | (p, a) :: rest =>
    match parseAlt a with
    | none => .error ⟨p, a⟩
    | some r =>
      match parseAlts rest with
      | .error e => .error e
      | .ok acc => .ok (runion acc r)

/-- Parse a range string: pipe-separated alternatives combined by union.
Modelled from the spec contract of range parsing, which fails with a
MalformedRangeError naming the offending text and position. -/
def parse (s : List Char) : Except MalformedRangeError (List Bound) :=
  parseAlts (splitAlts s 0 [])

theorem nonEmptyB_exact (v : Version) :
    nonEmptyB ⟨some (v, true), some (v, true)⟩ = true := by
  have hveq : versionCompare v v = .eq := (versionCompare_eq_iff v v).mpr rfl
  unfold nonEmptyB
  rw [cutLt_iff]
  simp only [lowCut, upCut, Bool.not_true, cutCmp]
  rw [hveq]
  rfl

theorem nonEmptyB_lowOnly (v : Version) :
    nonEmptyB ⟨some (v, true), none⟩ = true := rfl

theorem nonEmptyB_upOnly (w : Version) :
    nonEmptyB ⟨none, some (w, false)⟩ = true := rfl

theorem canonR_singleton {b : Bound} (h : nonEmptyB b = true) :
    canonR [b] = true := by
  simp [canonR, headGT, h]

theorem parseAltCore_canon : ∀ (pre suf : List Char) (r : List Bound),
    parseAltCore pre suf = some r → canonR r = true := by
  intro pre suf r h
  unfold parseAltCore at h
  split at h
  · cases hv : parseVersion pre with
    | none => simp [hv] at h
    | some v =>
      simp [hv] at h
      rw [← h]
      exact canonR_singleton (nonEmptyB_exact v)
  · cases hv : parseVersion pre with
    | none => simp [hv] at h
    | some v =>
      simp [hv] at h
      rw [← h]
      exact canonR_singleton (nonEmptyB_lowOnly v)
  · rename_i w
    cases hv : parseVersion pre with
    | none => rw [hv] at h; cases h
    | some v =>
      cases hw : parseVersion w with
      | none => rw [hv, hw] at h; cases h
      | some wv =>
        rw [hv, hw] at h
        cases h
        split
        · rename_i hne
          exact canonR_singleton hne
        · rfl
  · cases h

theorem parseAlt_canon {a : List Char} {r : List Bound}
    (h : parseAlt a = some r) : canonR r = true := by
  unfold parseAlt at h
  split at h
  · cases h
    rfl
  · split at h
    · rename_i rest hne
      cases hv : parseVersion rest with
      | none => rw [hv] at h; cases h
      | some w =>
        rw [hv] at h
        cases h
        exact canonR_singleton (nonEmptyB_upOnly w)
    · exact parseAltCore_canon _ _ _ h

theorem parseAlts_canon : ∀ (l : List (Nat × List Char)) (r : List Bound),
    parseAlts l = .ok r → canonR r = true := by
  intro l
  induction l with
  | nil =>
    intro r h
    cases h
    rfl
  | cons pa rest ih =>
    intro r h
    obtain ⟨p, a⟩ := pa
    unfold parseAlts at h
    cases ha : parseAlt a with
    | none => rw [ha] at h; cases h
    | some r' =>
      rw [ha] at h
      cases hr : parseAlts rest with
      | error e => rw [hr] at h; cases h
      | ok acc =>
        rw [hr] at h
        cases h
        exact runion_canon r' acc (ih acc hr) (parseAlt_canon ha)

theorem parse_canon {s : List Char} {r : List Bound} (h : parse s = .ok r) :
    canonR r = true :=
  parseAlts_canon _ _ h

theorem parseAlts_error : ∀ (l : List (Nat × List Char)) (e : MalformedRangeError),
    parseAlts l = .error e → (e.pos, e.text) ∈ l ∧ parseAlt e.text = none := by
  intro l
  induction l with
  | nil => intro e h; cases h
  | cons pa rest ih =>
    intro e h
    obtain ⟨p, a⟩ := pa
    unfold parseAlts at h
    cases ha : parseAlt a with
    | none =>
      rw [ha] at h
      cases h
      exact ⟨List.mem_cons_self _ _, ha⟩
    | some r' =>
      rw [ha] at h
      cases hr : parseAlts rest with
      | error e' =>
        rw [hr] at h
        cases h
        obtain ⟨hm, hb⟩ := ih _ hr
        exact ⟨List.mem_cons_of_mem _ hm, hb⟩
      | ok acc => rw [hr] at h; cases h

theorem splitAlts_slice : ∀ (rem : List Char) (start : Nat) (acc : List Char)
    (s : List Char), start ≤ s.length → s.drop start = acc.reverse ++ rem →
    ∀ p a, (p, a) ∈ splitAlts rem start acc →
      (s.drop p).take a.length = a ∧ p + a.length ≤ s.length := by
  intro rem
  induction rem with
  | nil =>
    intro start acc s hst hdrop p a hmem
    simp only [splitAlts, List.mem_singleton, Prod.mk.injEq] at hmem
    obtain ⟨hp, ha⟩ := hmem
    subst hp
    subst ha
    rw [List.append_nil] at hdrop
    have hlen := congrArg List.length hdrop
    rw [List.length_drop, List.length_reverse] at hlen
    constructor
    · rw [hdrop]
      exact List.take_length _
    · rw [List.length_reverse]
      omega
  | cons c rest ih =>
    intro start acc s hst hdrop p a hmem
    rw [splitAlts] at hmem
    by_cases hc : c = '|'
    · rw [if_pos hc] at hmem
      have hlen := congrArg List.length hdrop
      rw [List.length_drop, List.length_append, List.length_cons,
        List.length_reverse] at hlen
      rcases List.mem_cons.mp hmem with heq | htail
      · cases heq
        constructor
        · rw [hdrop]
          exact List.take_left _ _
        · rw [List.length_reverse]
          omega
      · have hd2 : s.drop (start + acc.length + 1) = rest := by
          have hcm : start + acc.length + 1 = start + (acc.length + 1) := by omega
          rw [hcm, ← List.drop_drop, hdrop, hc]
          have hsp : acc.reverse ++ '|' :: rest = (acc.reverse ++ ['|']) ++ rest := by
            simp
          rw [hsp]
          have hln : acc.length + 1 = (acc.reverse ++ ['|']).length := by simp
          rw [hln, List.drop_left]
        apply ih (start + acc.length + 1) [] s (by omega) (by rw [hd2]; rfl) p a htail
    · rw [if_neg hc] at hmem
      apply ih start (c :: acc) s hst ?_ p a hmem
      rw [hdrop]
      simp

/-- Well-formedness of a full range string: every pipe-separated alternative
parses. -/
def wellFormedRange (s : List Char) : Bool :=
  (splitAlts s 0 []).all (fun pa => (parseAlt pa.2).isSome)

theorem parseAlts_ok_iff : ∀ (l : List (Nat × List Char)),
    (∃ r, parseAlts l = .ok r) ↔ ∀ pa ∈ l, (parseAlt pa.2).isSome = true := by
  intro l
  induction l with
  | nil => simp [parseAlts]
  | cons pa rest ih =>
    obtain ⟨p, a⟩ := pa
    constructor
    · intro ⟨r, h⟩ qa hqa
      unfold parseAlts at h
      cases ha : parseAlt a with
      | none => rw [ha] at h; cases h
      | some r' =>
        rw [ha] at h
        cases hr : parseAlts rest with
        | error e => rw [hr] at h; cases h
        | ok acc =>
          rcases List.mem_cons.mp hqa with heq | htail
          · subst heq
            simp [ha]
          · exact (ih.mp ⟨acc, hr⟩) qa htail
    · intro hall
      have ha : (parseAlt a).isSome = true := hall (p, a) (List.mem_cons_self _ _)
      rw [Option.isSome_iff_exists] at ha
      obtain ⟨r', ha⟩ := ha
      obtain ⟨acc, hr⟩ := ih.mpr (fun qa hqa => hall qa (List.mem_cons_of_mem _ hqa))
      refine ⟨runion acc r', ?_⟩
      unfold parseAlts
      rw [ha, hr]

theorem parse_ok_iff_wellFormed (s : List Char) :
    (∃ r, parse s = .ok r) ↔ wellFormedRange s = true := by
  unfold parse wellFormedRange
  rw [parseAlts_ok_iff]
  simp [List.all_eq_true]

theorem tokenCmp_num_zero_min (t : Token) : tokenCmp (Token.num 0) t ≠ .gt := by
  cases t with
  | num n =>
    by_cases h : 0 < n
    · simp [tokenCmp, natCmp, h]
    · simp [tokenCmp, natCmp, h]
  | alpha s => simp [tokenCmp]

theorem lexCompare_nil_right_ne_lt (cmp : α → α → Ordering) (l : List α) :
    lexCompare cmp l [] ≠ .lt := by
  cases l <;> simp [lexCompare]

theorem version_gt_two_ge_succ : ∀ v : Version,
    versionCompare v [Token.num 2] = .gt →
    versionCompare v [Token.num 2, Token.num 0] ≠ .lt := by
  intro v hgt
  cases v with
  | nil => simp [versionCompare, lexCompare] at hgt
  | cons t rest =>
    unfold versionCompare lexCompare at hgt ⊢
    cases ht : tokenCmp t (Token.num 2) with
    | lt => rw [ht] at hgt; simp at hgt
    | gt => simp
    | eq =>
      rw [ht] at hgt
      replace hgt : lexCompare tokenCmp rest [] = Ordering.gt := hgt
      show lexCompare tokenCmp rest [Token.num 0] ≠ Ordering.lt
      cases rest with
      | nil => simp [lexCompare] at hgt
      | cons r rest' =>
        unfold lexCompare
        cases hr : tokenCmp r (Token.num 0) with
        | lt =>
          exfalso
          have h2 : tokenCmp (Token.num 0) r = .gt := by
            rw [tokenCmp_swap, hr]
            rfl
          exact (tokenCmp_num_zero_min r) h2
        | eq =>
          exact lexCompare_nil_right_ne_lt tokenCmp rest'
        | gt =>
          simp

/-- Exact range for version 2, the parse of the alternative 2. -/
def exactTwoR : List Bound :=
  [⟨some ([Token.num 2], true), some ([Token.num 2], true)⟩]

/-- Half-open range from 2 inclusive up to 2.0 exclusive, the parse of the
alternative 2+<2.0. -/
def halfOpenTwoR : List Bound :=
  [⟨some ([Token.num 2], true), some ([Token.num 2, Token.num 0], false)⟩]

theorem upper_two_succ (v : Version) :
    cutLe (ptCut v) (upCut (some ([Token.num 2], true))) =
    cutLe (ptCut v) (upCut (some ([Token.num 2, Token.num 0], false))) := by
  cases hv : versionCompare v [Token.num 2] with
  | lt =>
    have h20 : versionCompare [Token.num 2] [Token.num 2, Token.num 0] = .lt := by
      decide
    have hlt := versionCompare_lt_trans hv h20
    unfold cutLe ptCut upCut
    simp only [cutCmp, hv, hlt]
  | eq =>
    have hve : v = [Token.num 2] := (versionCompare_eq_iff _ _).mp hv
    subst hve
    decide
  | gt =>
    have hne := version_gt_two_ge_succ v hv
    unfold cutLe ptCut upCut
    simp only [cutCmp, hv]
    cases h2 : versionCompare v [Token.num 2, Token.num 0] with
    | lt => exact absurd h2 hne
    | eq => rfl
    | gt => rfl

/-- Semantic equality of two ranges: they contain exactly the same
versions. -/
def semEqR (r1 r2 : List Bound) : Prop := ∀ v, containsR r1 v = containsR r2 v

theorem exactTwo_semEq : semEqR exactTwoR halfOpenTwoR := by
  intro v
  simp only [exactTwoR, halfOpenTwoR, containsR, List.any_cons, List.any_nil,
    Bool.or_false]
  unfold containsB
  rw [upper_two_succ v]

/-- C3: versionCompare is a strict total order on versions: every comparison
yields exactly one of less, equal or greater (the three Ordering values are
mutually exclusive constructors), equal holds exactly on equal versions, the
comparison of v2 with v1 is the inverse (swap) of that of v1 with v2, and
strict less-than is transitive. -/
theorem c3_versionCompare_strict_total_order (v1 v2 v3 : Version) :
    (versionCompare v1 v2 = .lt ∨ versionCompare v1 v2 = .eq ∨
      versionCompare v1 v2 = .gt) ∧
    (versionCompare v1 v2 = .eq ↔ v1 = v2) ∧
    (versionCompare v2 v1 = (versionCompare v1 v2).swap) ∧
    (versionCompare v1 v2 = .lt → versionCompare v2 v3 = .lt →
      versionCompare v1 v3 = .lt) := by
  refine ⟨?_, versionCompare_eq_iff v1 v2, versionCompare_swap v1 v2,
    fun h1 h2 => versionCompare_lt_trans h1 h2⟩
  cases versionCompare v1 v2 <;> simp

/-- Witness for C3 at concrete versions 1, 2, 3. -/
theorem c3_versionCompare_strict_total_order_witness :
    versionCompare [Token.num 1] [Token.num 3] = .lt :=
  (c3_versionCompare_strict_total_order [Token.num 1] [Token.num 2]
    [Token.num 3]).2.2.2 (by decide) (by decide)

/-- C2: on canonical ranges, intersection is idempotent and commutative, and
intersecting with the unbounded any range (on either side) is the
identity. -/
theorem c2_intersect_algebra :
    (∀ r, canonR r = true → isect r r = r) ∧
    (∀ r1 r2, isect r1 r2 = isect r2 r1) ∧
    (∀ r, canonR r = true → isect anyR r = r ∧ isect r anyR = r) :=
  ⟨isect_self, isect_comm, fun r h => ⟨isect_any_left r h, isect_any_right r h⟩⟩

/-- Witness for C2 at the concrete canonical range for version 2. -/
theorem c2_intersect_algebra_witness :
    isect exactTwoR exactTwoR = exactTwoR ∧ isect anyR exactTwoR = exactTwoR :=
  ⟨c2_intersect_algebra.1 exactTwoR (by decide),
   (c2_intersect_algebra.2.2 exactTwoR (by decide)).1⟩

/-- C4 (amended): every VersionRange produced by parsing, by intersection of
canonical ranges, or by union of canonical ranges satisfies the canonical
invariant: all bounds non-empty, sorted, non-overlapping, and no two
adjacent touching bounds left unmerged. The original claim further asserted
that semantically identical ranges are structurally equal, which fails; see
the counterexample. -/
theorem c4_canonical_invariant :
    (∀ s r, parse s = .ok r → canonR r = true) ∧
    (∀ r1 r2, canonR r1 = true → canonR r2 = true →
      canonR (isect r1 r2) = true) ∧
    (∀ r1 r2, canonR r1 = true → canonR r2 = true →
      canonR (runion r1 r2) = true) :=
  ⟨fun _ _ h => parse_canon h, fun _ _ h1 h2 => isect_canon h1 h2,
   fun r1 r2 h1 h2 => runion_canon r2 r1 h1 h2⟩

/-- Witness for C4 at concrete canonical ranges. -/
theorem c4_canonical_invariant_witness :
    canonR exactTwoR = true ∧
    canonR (isect exactTwoR anyR) = true ∧
    canonR (runion exactTwoR anyR) = true :=
  ⟨c4_canonical_invariant.1 ['2'] exactTwoR (by rfl),
   c4_canonical_invariant.2.1 exactTwoR anyR (by decide) (by decide),
   c4_canonical_invariant.2.2 exactTwoR anyR (by decide) (by decide)⟩

/-- C4 (counterexample): the ranges parsed from 2 and from 2+<2.0 are both
canonical and contain exactly the same versions, because 2.0 is the
immediate successor of 2 in the version order, yet they are structurally
different. Canonical form therefore does not make semantically identical
ranges structurally equal. -/
theorem c4_counterexample :
    parse ['2'] = .ok exactTwoR ∧
    parse ['2', '+', '<', '2', '.', '0'] = .ok halfOpenTwoR ∧
    canonR exactTwoR = true ∧ canonR halfOpenTwoR = true ∧
    semEqR exactTwoR halfOpenTwoR ∧ exactTwoR ≠ halfOpenTwoR :=
  ⟨rfl, rfl, by decide, by decide, exactTwo_semEq, by decide⟩

/-- C7: when parsing a range string fails, the MalformedRangeError reports
verbatim the offending alternative text and its position: the reported text
is exactly the input slice starting at the reported position, the position
lies within the input, and the reported text genuinely fails to parse.
Moreover parsing succeeds exactly on well-formed range strings, so every
malformed string fails with such an error. -/
theorem c7_malformed_range_error :
    (∀ s e, parse s = .error e →
      (s.drop e.pos).take e.text.length = e.text ∧
      e.pos + e.text.length ≤ s.length ∧ parseAlt e.text = none) ∧
    (∀ s, (∃ r, parse s = .ok r) ↔ wellFormedRange s = true) := by
  constructor
  · intro s e h
    unfold parse at h
    obtain ⟨hmem, hbad⟩ := parseAlts_error _ _ h
    have hsl := splitAlts_slice s 0 [] s (by omega) (by simp) e.pos e.text hmem
    exact ⟨hsl.1, hsl.2, hbad⟩
  · exact parse_ok_iff_wellFormed

/-- Witness for C7 at a concrete malformed input. -/
theorem c7_malformed_range_error_witness :
    ((['2', '|', '@'] : List Char).drop 2).take 1 = ['@'] ∧
    2 + 1 ≤ 3 ∧ parseAlt ['@'] = none := by
  have h := c7_malformed_range_error.1 ['2', '|', '@'] ⟨2, ['@']⟩ (by rfl)
  exact h

/-- Well-formedness of a bound as produced by the requirement parser: lower
endpoints are inclusive, and a bound unbounded below with an exclusive upper
endpoint excludes the empty (minimal) version. Such bounds have a computable
member version whenever they are structurally non-empty. -/
def wfB (b : Bound) : Bool :=
  match b.lower with
  | some (_, incl) => incl
  | none =>
    match b.upper with
    | some (w, false) => !w.isEmpty
    | _ => true

/-- Well-formedness of a range: all its bounds are well-formed. -/
def wfR (r : List Bound) : Bool := r.all wfB

theorem wfB_any : wfB ⟨none, none⟩ = true := rfl

theorem cutLt_negInf_false (c : ECut) : cutLt c ECut.negInf = false := by
  cases c <;> rfl

theorem wfB_boundIntersect {b1 b2 : Bound} (h1 : wfB b1 = true)
    (h2 : wfB b2 = true) : wfB (boundIntersect b1 b2) = true := by
  unfold wfB at h1 h2 ⊢
  unfold boundIntersect
  simp only
  by_cases hcl : cutLt (lowCut b1.lower) (lowCut b2.lower) = true
  · have hml : maxLow b1.lower b2.lower = b2.lower := by
      unfold maxLow
      rw [hcl]
      simp
    rw [hml]
    cases hl2 : b2.lower with
    | some p =>
      obtain ⟨v, i⟩ := p
      rw [hl2] at h2
      exact h2
    | none =>
      exfalso
      rw [hl2] at hcl
      simp only [lowCut] at hcl
      rw [cutLt_negInf_false] at hcl
      simp at hcl
  · have hclf : cutLt (lowCut b1.lower) (lowCut b2.lower) = false := by
      cases h : cutLt (lowCut b1.lower) (lowCut b2.lower)
      · rfl
      · exact absurd h hcl
    have hml : maxLow b1.lower b2.lower = b1.lower := by
      unfold maxLow
      rw [hclf]
      simp
    rw [hml]
    cases hl1 : b1.lower with
    | some p =>
      obtain ⟨v, i⟩ := p
      rw [hl1] at h1
      exact h1
    | none =>
      rw [hl1] at h1 hclf
      cases hl2 : b2.lower with
      | some p =>
        exfalso
        obtain ⟨v, i⟩ := p
        rw [hl2] at hclf
        simp [lowCut, cutLt, cutCmp] at hclf
      | none =>
        rw [hl2] at h2
        by_cases hcu : cutLt (upCut b2.upper) (upCut b1.upper) = true
        · have hmu : minUp b1.upper b2.upper = b2.upper := by
            unfold minUp
            rw [hcu]
            simp
          rw [hmu]
          exact h2
        · have hcuf : cutLt (upCut b2.upper) (upCut b1.upper) = false := by
            cases h : cutLt (upCut b2.upper) (upCut b1.upper)
            · rfl
            · exact absurd h hcu
          have hmu : minUp b1.upper b2.upper = b1.upper := by
            unfold minUp
            rw [hcuf]
            simp
          rw [hmu]
          exact h1

theorem wfR_isect : ∀ r1 r2, wfR r1 = true → wfR r2 = true →
    wfR (isect r1 r2) = true := by
  intro r1 r2
  induction r1, r2 using isect.induct with
  | case1 r => intro h1 h2; simp [isect, wfR]
  | case2 b t => intro h1 h2; simp [isect, wfR]
  | case3 b1 t1 b2 t2 b hne ih_lt ih_gt ih_eq =>
    intro h1 h2
    simp only [wfR, List.all_cons, Bool.and_eq_true] at h1 h2
    obtain ⟨hw1, ht1⟩ := h1
    obtain ⟨hw2, ht2⟩ := h2
    rw [isect]
    simp only [hne, if_true]
    cases hc : cutCmp (upCut b1.upper) (upCut b2.upper) with
    | lt =>
      simp only [wfR, List.all_cons, Bool.and_eq_true]
      refine ⟨wfB_boundIntersect hw1 hw2, ?_⟩
      have := ih_lt ht1 (by simp [wfR, List.all_cons, hw2, ht2])
      simpa [wfR] using this
    | eq =>
      simp only [wfR, List.all_cons, Bool.and_eq_true]
      exact ⟨wfB_boundIntersect hw1 hw2, by simpa [wfR] using ih_eq ht1 ht2⟩
    | gt =>
      simp only [wfR, List.all_cons, Bool.and_eq_true]
      refine ⟨wfB_boundIntersect hw1 hw2, ?_⟩
      have := ih_gt (by simp [wfR, List.all_cons, hw1, ht1]) ht2
      simpa [wfR] using this
  | case4 b1 t1 b2 t2 b hne ih_lt ih_gt ih_eq =>
    intro h1 h2
    simp only [wfR, List.all_cons, Bool.and_eq_true] at h1 h2
    obtain ⟨hw1, ht1⟩ := h1
    obtain ⟨hw2, ht2⟩ := h2
    have hnef : nonEmptyB (boundIntersect b1 b2) = false := by simp_all
    rw [isect]
    simp only [hnef, Bool.false_eq_true, if_false]
    cases hc : cutCmp (upCut b1.upper) (upCut b2.upper) with
    | lt => exact ih_lt ht1 (by simp [wfR, List.all_cons, hw2, ht2])
    | eq => exact ih_eq ht1 ht2
    | gt => exact ih_gt (by simp [wfR, List.all_cons, hw1, ht1]) ht2

theorem cutLt_before_after (v : Version) :
    cutLt (ECut.mid v false) (ECut.mid v true) = true := by
  rw [cutLt_iff]
  simp only [cutCmp]
  rw [(versionCompare_eq_iff v v).mpr rfl]
  rfl

theorem cut_after_of_before {v : Version} {c : ECut}
    (h : cutLt (ECut.mid v false) c = true) : cutLe (ECut.mid v true) c = true := by
  cases c with
  | negInf => simp [cutLt, cutCmp] at h
  | posInf => rfl
  | mid w s =>
    rw [cutLt_iff] at h
    rw [cutLe_iff]
    simp only [cutCmp] at h ⊢
    cases hvw : versionCompare v w with
    | lt => simp
    | gt => rw [hvw] at h; simp at h
    | eq =>
      rw [hvw] at h
      cases s with
      | false => simp [boolCmp] at h
      | true => simp [boolCmp]

theorem wfB_witness {b : Bound} (hwf : wfB b = true) (hne : nonEmptyB b = true) :
    ∃ v, containsB b v = true := by
  unfold wfB at hwf
  unfold nonEmptyB at hne
  cases hl : b.lower with
  | some p =>
    obtain ⟨v, incl⟩ := p
    rw [hl] at hwf hne
    subst hwf
    refine ⟨v, ?_⟩
    unfold containsB
    rw [hl]
    simp only [lowCut, Bool.not_true, ptCut]
    rw [cutLt_before_after]
    simp only [Bool.true_and]
    simp only [lowCut, Bool.not_true] at hne
    exact cut_after_of_before hne
  | none =>
    rw [hl] at hwf hne
    cases hu : b.upper with
    | none =>
      refine ⟨[], ?_⟩
      unfold containsB
      rw [hl, hu]
      rfl
    | some q =>
      obtain ⟨w, wincl⟩ := q
      cases wincl with
      | true =>
        refine ⟨w, ?_⟩
        unfold containsB
        rw [hl, hu]
        simp only [lowCut, upCut, ptCut]
        have h1 : cutLt ECut.negInf (ECut.mid w true) = true := rfl
        rw [h1, cutLe_refl]
        rfl
      | false =>
        rw [hu] at hwf
        simp only at hwf
        cases w with
        | nil => simp at hwf
        | cons tk tks =>
          refine ⟨[], ?_⟩
          unfold containsB
          rw [hl, hu]
          rfl

theorem canonR_wfR_witness {r : List Bound} (hc : canonR r = true)
    (hw : wfR r = true) (hne : r ≠ []) : ∃ v, containsR r v = true := by
  cases r with
  | nil => exact absurd rfl hne
  | cons b t =>
    obtain ⟨hbne, _, _⟩ := canonR_cons_elim hc
    have hbw : wfB b = true := by
      simp only [wfR, List.all_cons, Bool.and_eq_true] at hw
      exact hw.1
    obtain ⟨v, hv⟩ := wfB_witness hbw hbne
    refine ⟨v, ?_⟩
    rw [containsR_cons, hv]
    rfl

/-- Intersection of the ranges of a list of requirements placed on one
package, starting from the unconstrained any range. Modelled from the spec:
the requirement-graph node accumulates the intersection of all requirements
placed on a package. -/
def intersectAll (l : List (List Bound)) : List Bound :=
  l.foldr (fun r acc => isect r acc) anyR

/-- Satisfiability of a list of requirement ranges on one package: some
version lies in all of them. -/
def satisfiableL (l : List (List Bound)) : Prop :=
  ∃ v, ∀ r ∈ l, containsR r v = true

theorem canonR_anyR : canonR anyR = true := rfl

theorem wfR_anyR : wfR anyR = true := rfl

theorem containsR_anyR (v : Version) : containsR anyR v = true := rfl

theorem intersectAll_canon : ∀ l : List (List Bound),
    (∀ r ∈ l, canonR r = true) → canonR (intersectAll l) = true
  | [] => fun _ => canonR_anyR
  | r :: rest => fun h => by
    have : intersectAll (r :: rest) = isect r (intersectAll rest) := rfl
    rw [this]
    exact isect_canon (h r (List.mem_cons_self _ _))
      (intersectAll_canon rest fun x hx => h x (List.mem_cons_of_mem _ hx))

theorem intersectAll_wf : ∀ l : List (List Bound),
    (∀ r ∈ l, canonR r = true ∧ wfR r = true) → wfR (intersectAll l) = true
  | [] => fun _ => wfR_anyR
  | r :: rest => fun h => by
    have : intersectAll (r :: rest) = isect r (intersectAll rest) := rfl
    rw [this]
    exact wfR_isect _ _ (h r (List.mem_cons_self _ _)).2
      (intersectAll_wf rest fun x hx => h x (List.mem_cons_of_mem _ hx))

theorem intersectAll_contains : ∀ l : List (List Bound),
    (∀ r ∈ l, canonR r = true) →
    ∀ v, containsR (intersectAll l) v = l.all (fun r => containsR r v)
  | [] => fun _ v => containsR_anyR v
  | r :: rest => fun h v => by
    have he : intersectAll (r :: rest) = isect r (intersectAll rest) := rfl
    rw [he, List.all_cons]
    rw [isect_contains r (intersectAll rest) (h r (List.mem_cons_self _ _))
      (intersectAll_canon rest fun x hx => h x (List.mem_cons_of_mem _ hx)) v]
    rw [intersectAll_contains rest (fun x hx => h x (List.mem_cons_of_mem _ hx)) v]

theorem satisfiable_congr {l1 l2 : List (List Bound)}
    (h : ∀ x, x ∈ l1 ↔ x ∈ l2) : satisfiableL l1 ↔ satisfiableL l2 := by
  unfold satisfiableL
  constructor
  · intro hv
    obtain ⟨v, hv⟩ := hv
    exact ⟨v, fun r hr => hv r ((h r).mpr hr)⟩
  · intro hv
    obtain ⟨v, hv⟩ := hv
    exact ⟨v, fun r hr => hv r ((h r).mp hr)⟩

theorem satisfiable_of_sublist {l1 l2 : List (List Bound)}
    (h : ∀ x ∈ l1, x ∈ l2) (hs : satisfiableL l2) : satisfiableL l1 := by
  obtain ⟨v, hv⟩ := hs
  exact ⟨v, fun r hr => hv r (h r hr)⟩

theorem satisfiable_iff_intersectAll_ne {l : List (List Bound)}
    (h : ∀ r ∈ l, canonR r = true ∧ wfR r = true) :
    satisfiableL l ↔ intersectAll l ≠ [] := by
  constructor
  · intro ⟨v, hv⟩ hemp
    have hc := intersectAll_contains l (fun x hx => (h x hx).1) v
    rw [hemp] at hc
    simp [containsR] at hc
    obtain ⟨r, hr, hcr⟩ := hc
    have hrv := hv r hr
    simp [containsR, List.any_eq_true] at hrv
    obtain ⟨b, hb, hbv⟩ := hrv
    rw [hcr b hb] at hbv
    simp at hbv
  · intro hne
    obtain ⟨v, hv⟩ := canonR_wfR_witness
      (intersectAll_canon l fun x hx => (h x hx).1)
      (intersectAll_wf l h) hne
    refine ⟨v, fun r hr => ?_⟩
    have hc := intersectAll_contains l (fun x hx => (h x hx).1) v
    rw [hv] at hc
    have hall : l.all (fun r => containsR r v) = true := hc.symm
    rw [List.all_eq_true] at hall
    exact hall r hr

theorem append_singleton_eq : ∀ (pre l post : List α) (x y : α),
    l ++ [x] = pre ++ y :: post →
    (pre = l ∧ y = x ∧ post = []) ∨
    (∃ post2, l = pre ++ y :: post2 ∧ post = post2 ++ [x]) := by
  intro pre
  induction pre with
  | nil =>
    intro l post x y h
    simp only [List.nil_append] at h
    cases l with
    | nil =>
      simp only [List.nil_append] at h
      injection h with h1 h2
      exact Or.inl ⟨rfl, h1.symm, h2.symm⟩
    | cons a l2 =>
      rw [List.cons_append] at h
      injection h with h1 h2
      refine Or.inr ⟨l2, ?_, h2.symm⟩
      rw [List.nil_append, h1]
  | cons p pre2 ih =>
    intro l post x y h
    cases l with
    | nil =>
      simp only [List.nil_append, List.cons_append] at h
      injection h with h1 h2
      exact absurd h2.symm (by simp)
    | cons a l2 =>
      rw [List.cons_append, List.cons_append] at h
      injection h with h1 h2
      rcases ih l2 post x y h2 with ⟨hp, hy, hpost⟩ | ⟨post2, hl, hpost⟩
      · refine Or.inl ⟨?_, hy, hpost⟩
        rw [h1, hp]
      · refine Or.inr ⟨post2, ?_, hpost⟩
        rw [List.cons_append, h1, hl]

/-- Greedy deletion filter computing a minimal conflicting core: walk the
requirement ranges, dropping any range whose removal keeps the intersection
empty and keeping it otherwise. -/
def shrink : List (List Bound) → List (List Bound) → List (List Bound)
  | kept, [] => kept
  | kept, r :: rest =>
    if (intersectAll (kept ++ rest)).isEmpty then shrink kept rest
    else shrink (kept ++ [r]) rest

/-- Conflict-explanation builder. Modelled from the spec: on terminal
failure the solver reports a minimal set of conflicting requirement chains;
here the chain is the list of requirement ranges accumulated on the
conflicting package, filtered to a minimal unsatisfiable core. -/
def conflictReport (l : List (List Bound)) : List (List Bound) := shrink [] l

theorem shrink_spec : ∀ (rest kept : List (List Bound)),
    (∀ r ∈ kept ++ rest, canonR r = true ∧ wfR r = true) →
    ¬ satisfiableL (kept ++ rest) →
    (∀ pre r post, kept = pre ++ r :: post → satisfiableL (pre ++ post ++ rest)) →
    (¬ satisfiableL (shrink kept rest)) ∧
    (∃ sub, shrink kept rest = kept ++ sub ∧ List.Sublist sub rest) ∧
    (∀ pre r post, shrink kept rest = pre ++ r :: post → satisfiableL (pre ++ post)) := by
  intro rest
  induction rest with
  | nil =>
    intro kept hmem hconf hinv
    rw [shrink]
    refine ⟨by simpa using hconf, ⟨[], by simp, List.Sublist.refl _⟩, ?_⟩
    intro pre r post hdec
    have := hinv pre r post hdec
    simpa using this
  | cons r rest ih =>
    intro kept hmem hconf hinv
    rw [shrink]
    have hmemd : ∀ x ∈ kept ++ rest, canonR x = true ∧ wfR x = true := by
      intro x hx
      apply hmem
      rcases List.mem_append.mp hx with h | h
      · exact List.mem_append.mpr (Or.inl h)
      · exact List.mem_append.mpr (Or.inr (List.mem_cons_of_mem _ h))
    by_cases hemp : (intersectAll (kept ++ rest)).isEmpty = true
    · rw [if_pos hemp]
      have hconf2 : ¬ satisfiableL (kept ++ rest) := by
        rw [satisfiable_iff_intersectAll_ne hmemd]
        rw [List.isEmpty_iff] at hemp
        simp [hemp]
      have hinv2 : ∀ pre r2 post, kept = pre ++ r2 :: post →
          satisfiableL (pre ++ post ++ rest) := by
        intro pre r2 post hdec
        apply satisfiable_of_sublist ?_ (hinv pre r2 post hdec)
        intro x hx
        simp at hx ⊢
        tauto
      obtain ⟨h1, ⟨sub, hsub1, hsub2⟩, h3⟩ := ih kept hmemd hconf2 hinv2
      exact ⟨h1, ⟨sub, hsub1, List.Sublist.cons _ hsub2⟩, h3⟩
    · rw [if_neg hemp]
      have hsat : satisfiableL (kept ++ rest) := by
        rw [satisfiable_iff_intersectAll_ne hmemd]
        intro hx
        rw [hx] at hemp
        simp at hemp
      have hmem2 : ∀ x ∈ (kept ++ [r]) ++ rest, canonR x = true ∧ wfR x = true := by
        intro x hx
        apply hmem
        simp at hx ⊢
        tauto
      have hconf2 : ¬ satisfiableL ((kept ++ [r]) ++ rest) := by
        intro hs
        apply hconf
        apply satisfiable_of_sublist ?_ hs
        intro x hx
        simp at hx ⊢
        tauto
      have hinv2 : ∀ pre r2 post, kept ++ [r] = pre ++ r2 :: post →
          satisfiableL (pre ++ post ++ rest) := by
        intro pre r2 post hdec
        rcases append_singleton_eq pre kept post r r2 hdec with
          ⟨hpre, hy, hpost⟩ | ⟨post2, hl, hpost⟩
        · subst hpre
          subst hpost
          simpa using hsat
        · apply satisfiable_of_sublist ?_ (hinv pre r2 post2 hl)
          intro x hx
          subst hpost
          simp at hx ⊢
          tauto
      obtain ⟨h1, ⟨sub, hsub1, hsub2⟩, h3⟩ := ih (kept ++ [r]) hmem2 hconf2 hinv2
      refine ⟨h1, ⟨r :: sub, ?_, List.Sublist.cons₂ _ hsub2⟩, h3⟩
      rw [hsub1]
      simp

/-- C6: whenever the accumulated requirement ranges on a package are jointly
unsatisfiable (a conflict), the reported chain built by conflictReport is
non-empty, still unsatisfiable, drawn from the accumulated requirements, and
minimal: removing any single member of the chain leaves a satisfiable
remainder. -/
theorem c6_conflict_report_minimal (l : List (List Bound))
    (hwf : ∀ r ∈ l, canonR r = true ∧ wfR r = true)
    (hconf : ¬ satisfiableL l) :
    conflictReport l ≠ [] ∧
    ¬ satisfiableL (conflictReport l) ∧
    List.Sublist (conflictReport l) l ∧
    (∀ pre r post, conflictReport l = pre ++ r :: post →
      satisfiableL (pre ++ post)) := by
  have h := shrink_spec l [] (by simpa using hwf) (by simpa using hconf)
    (by intro pre r post hdec; simp at hdec)
  obtain ⟨h1, ⟨sub, hsub1, hsub2⟩, h3⟩ := h
  unfold conflictReport
  refine ⟨?_, h1, ?_, h3⟩
  · intro hnil
    apply h1
    rw [hnil]
    exact ⟨[], by simp⟩
  · rw [hsub1]
    simpa using hsub2

/-- Range matching all versions strictly below 2, the parse of the
alternative text consisting of a less-than sign and the digit 2. -/
def ltTwoR : List Bound := [⟨none, some ([Token.num 2], false)⟩]

theorem exact_lt_two_conflict : ¬ satisfiableL [exactTwoR, ltTwoR] := by
  intro hs
  obtain ⟨v, hv⟩ := hs
  have h1 := hv exactTwoR (by simp)
  have h2 := hv ltTwoR (by simp)
  simp only [exactTwoR, ltTwoR, containsR_cons, containsR, List.any_nil,
    Bool.or_false] at h1 h2
  unfold containsB at h1 h2
  simp only [List.any_cons, List.any_nil, Bool.or_false, Bool.and_eq_true] at h1 h2
  have hlow := h1.1
  have hup := h2.2
  simp only [lowCut, upCut, Bool.not_true] at hlow hup
  have hcon := cutLt_le_trans hlow hup
  rw [cutLt_irrefl] at hcon
  simp at hcon

/-- Witness for C6 at the concrete conflict between the exact range 2 and
the range of versions strictly below 2. -/
theorem c6_conflict_report_minimal_witness :
    conflictReport [exactTwoR, ltTwoR] ≠ [] ∧
    ¬ satisfiableL (conflictReport [exactTwoR, ltTwoR]) ∧
    List.Sublist (conflictReport [exactTwoR, ltTwoR]) [exactTwoR, ltTwoR] ∧
    (∀ pre r post, conflictReport [exactTwoR, ltTwoR] = pre ++ r :: post →
      satisfiableL (pre ++ post)) :=
  c6_conflict_report_minimal [exactTwoR, ltTwoR] (by decide) exact_lt_two_conflict

/-- Requirement polarity. Modelled from the spec: a closed tagged variant
with normal, weak and conflict forms. -/
inductive Polarity where
  | normal : Polarity
  | weak : Polarity
  | conflictPol : Polarity
deriving DecidableEq

/-- Requirement: a package name, a version range and a polarity. Modelled
from the spec data model; the solver treats weak like normal, which none of
the verified claims distinguish. -/
structure Requirement where
  rname : List Char
  range : List Bound
  pol : Polarity
deriving DecidableEq

/-- PackageVariant: a variant index and the variant's own
sub-requirements. Modelled from the spec data model. -/
structure Variant where
  idx : Nat
  vreqs : List Requirement
deriving DecidableEq

/-- One version of a package with its build variants in declaration
order. Modelled from the spec repository interface. -/
structure PkgVersion where
  ver : Version
  variants : List Variant
deriving DecidableEq

/-- Package family: a name and its versions in descending repository
order. Modelled from the spec repository interface. -/
structure Family where
  fname : List Char
  versions : List PkgVersion
deriving DecidableEq

/-- Repository: list of package families. Modelled from the spec. -/
abbrev Repo := List Family

/-- Solver error taxonomy. Modelled from the spec: PackageNotFoundError,
ResolveFailedError and CyclicRequirementError (the latter raised through the
depth bound the spec sanctions for cycle detection). -/
inductive SolveError where
  | packageNotFound : List Char → SolveError
  | resolveFailed : List Char → SolveError
  | cyclicRequirement : SolveError
deriving DecidableEq

def findFamily (repo : Repo) (n : List Char) : Option Family :=
  repo.find? (fun f => decide (f.fname = n))

def familyVersions (repo : Repo) (n : List Char) : List PkgVersion :=
  match findFamily repo n with
  | none => []
  | some f => f.versions

/-- Repository query of the spec: get_versions fails with
PackageNotFoundError when a name has zero versions. -/
def getVersions (repo : Repo) (n : List Char) : Except SolveError (List PkgVersion) :=
  match familyVersions repo n with
  | [] => .error (.packageNotFound n)
  | vs => .ok vs

/-- Number of repository versions satisfying a requirement, the first
component of the spec's node-choice priority (most constrained first). -/
def candCount (repo : Repo) (rq : Requirement) : Nat :=
  ((familyVersions repo rq.rname).filter (fun pv => containsR rq.range pv.ver)).length

def charsLeB (s1 s2 : List Char) : Bool :=
  match lexCompare charCmp s1 s2 with
  | .gt => false
  | _ => true

/-- Priority order of the spec's Choosing step: fewer remaining candidates
first, ties broken by package name. -/
def keyLEb (repo : Repo) (r1 r2 : Requirement) : Bool :=
  if candCount repo r1 < candCount repo r2 then true
  else if candCount repo r1 = candCount repo r2 then charsLeB r1.rname r2.rname
  else false

theorem charsLeB_refl (s : List Char) : charsLeB s s = true := by
  unfold charsLeB
  rw [(lexCompare_eq_iff charCmp charCmp_eq_iff s s).mpr rfl]

theorem charsLeB_total (s1 s2 : List Char) :
    charsLeB s1 s2 = true ∨ charsLeB s2 s1 = true := by
  unfold charsLeB
  cases h : lexCompare charCmp s1 s2 with
  | lt => left; rfl
  | eq => left; rfl
  | gt =>
    right
    rw [lexCompare_swap charCmp charCmp_swap, h]
    rfl

theorem charsLeB_trans {a b c : List Char} (h1 : charsLeB a b = true)
    (h2 : charsLeB b c = true) : charsLeB a c = true := by
  unfold charsLeB at *
  cases hab : lexCompare charCmp a b <;> rw [hab] at h1 <;>
    cases hbc : lexCompare charCmp b c <;> rw [hbc] at h2 <;> try simp at h1 h2
  · rw [lexCompare_lt_trans charCmp charCmp_eq_iff charCmp_lt_trans a b c hab hbc]
  · have : b = c := (lexCompare_eq_iff charCmp charCmp_eq_iff b c).mp hbc
    rw [← this, hab]
  · have : a = b := (lexCompare_eq_iff charCmp charCmp_eq_iff a b).mp hab
    rw [this, hbc]
  · have : a = b := (lexCompare_eq_iff charCmp charCmp_eq_iff a b).mp hab
    rw [this, hbc]

theorem keyLEb_refl (repo : Repo) (r : Requirement) : keyLEb repo r r = true := by
  unfold keyLEb
  simp [charsLeB_refl]

theorem keyLEb_total (repo : Repo) (r1 r2 : Requirement) :
    keyLEb repo r1 r2 = true ∨ keyLEb repo r2 r1 = true := by
  unfold keyLEb
  by_cases h1 : candCount repo r1 < candCount repo r2
  · left; simp [h1]
  · by_cases h2 : candCount repo r1 = candCount repo r2
    · rcases charsLeB_total r1.rname r2.rname with h | h
      · left; simp [h1, h2, h]
      · right; simp [h2, h1, h]
    · right
      have : candCount repo r2 < candCount repo r1 := by omega
      simp [this]

theorem keyLEb_trans {repo : Repo} {r1 r2 r3 : Requirement}
    (h1 : keyLEb repo r1 r2 = true) (h2 : keyLEb repo r2 r3 = true) :
    keyLEb repo r1 r3 = true := by
  unfold keyLEb at *
  by_cases ha : candCount repo r1 < candCount repo r2 <;>
    by_cases hb : candCount repo r2 < candCount repo r3 <;>
      by_cases hc : candCount repo r1 = candCount repo r2 <;>
        by_cases hd : candCount repo r2 = candCount repo r3 <;>
          simp_all <;> try omega
  have he : candCount repo r1 = candCount repo r3 := by omega
  simp [he, show ¬ candCount repo r1 < candCount repo r3 by omega] at *
  exact charsLeB_trans h1 h2

/-- Deterministic choice of the next requirement to resolve, per the spec
Choosing step: minimal priority key (fewest candidates, then name), with the
earliest occurrence winning ties. Returns the chosen requirement and the
remaining list. -/
def specChoose (repo : Repo) : List Requirement → Option (Requirement × List Requirement)
  | [] => none
  | [r] => some (r, [])
  | r :: rest =>
    match specChoose repo rest with
    | some (c, rem) =>
      if keyLEb repo r c then some (r, rest) else some (c, r :: rem)
    | none => some (r, rest)

/-- Relational specification of the Choosing step: the chosen requirement
occurs in the list, every list element has key at least as large, no earlier
occurrence has key less-or-equal (stability), and the remainder is the list
with that occurrence removed. -/
def IsSpecChoice (repo : Repo) (l : List Requirement)
    (c : Requirement) (rem : List Requirement) : Prop :=
  ∃ pre post, l = pre ++ c :: post ∧ rem = pre ++ post ∧
    (∀ x ∈ l, keyLEb repo c x = true) ∧
    (∀ x ∈ pre, keyLEb repo x c = false)

theorem mem_of_append_cons_lt : ∀ {pre1 pre2 post1 post2 : List α} {c1 c2 : α},
    pre1 ++ c1 :: post1 = pre2 ++ c2 :: post2 →
    pre1.length < pre2.length → c1 ∈ pre2 := by
  intro pre1
  induction pre1 with
  | nil =>
    intro pre2 post1 post2 c1 c2 he hlt
    cases pre2 with
    | nil => simp at hlt
    | cons p pre2' =>
      rw [List.nil_append, List.cons_append] at he
      injection he with h1 _
      rw [h1]
      exact List.mem_cons_self _ _
  | cons a pre1' ih =>
    intro pre2 post1 post2 c1 c2 he hlt
    cases pre2 with
    | nil => simp at hlt
    | cons p pre2' =>
      rw [List.cons_append, List.cons_append] at he
      injection he with h1 h2
      simp only [List.length_cons] at hlt
      exact List.mem_cons_of_mem _ (ih h2 (by omega))

theorem IsSpecChoice_unique {repo : Repo} {l : List Requirement}
    {c1 c2 : Requirement} {rem1 rem2 : List Requirement}
    (h1 : IsSpecChoice repo l c1 rem1) (h2 : IsSpecChoice repo l c2 rem2) :
    c1 = c2 ∧ rem1 = rem2 := by
  obtain ⟨pre1, post1, he1, hr1, hmin1, hpre1⟩ := h1
  obtain ⟨pre2, post2, he2, hr2, hmin2, hpre2⟩ := h2
  have he := he1.symm.trans he2
  rcases Nat.lt_trichotomy pre1.length pre2.length with hlt | heq | hgt
  · exfalso
    have hc1mem : c1 ∈ pre2 := mem_of_append_cons_lt he hlt
    have := hpre2 c1 hc1mem
    have hmem2 : c2 ∈ l := by rw [he2]; simp
    have := hmin1 c2 hmem2
    -- keyLEb c1 c2 = true but also keyLEb c1 c2 = false
    simp_all
  · obtain ⟨hp, hq⟩ := List.append_inj he heq
    injection hq with hc hpost
    subst hp
    subst hc
    subst hpost
    exact ⟨rfl, hr1.trans hr2.symm⟩
  · exfalso
    have hc2mem : c2 ∈ pre1 := mem_of_append_cons_lt he.symm hgt
    have := hpre1 c2 hc2mem
    have hmem1 : c1 ∈ l := by rw [he1]; simp
    have := hmin2 c1 hmem1
    simp_all

theorem specChoose_spec (repo : Repo) : ∀ l : List Requirement, l ≠ [] →
    ∃ c rem, specChoose repo l = some (c, rem) ∧ IsSpecChoice repo l c rem := by
  intro l
  induction l with
  | nil => intro h; exact absurd rfl h
  | cons r rest ih =>
    intro _
    cases hrest : rest with
    | nil =>
      refine ⟨r, [], rfl, [], [], rfl, rfl, ?_, by simp⟩
      intro x hx
      simp at hx
      rw [hx]
      exact keyLEb_refl repo r
    | cons r2 rest2 =>
      subst hrest
      obtain ⟨c, rem, hch, pre, post, hl, hrem, hmin, hpre⟩ := ih (by simp)
      have hunfold : specChoose repo (r :: r2 :: rest2) =
          match specChoose repo (r2 :: rest2) with
          | some (c, rem) =>
            if keyLEb repo r c then some (r, r2 :: rest2) else some (c, r :: rem)
          | none => some (r, r2 :: rest2) := rfl
      rw [hunfold, hch]
      dsimp only
      by_cases hk : keyLEb repo r c = true
      · rw [if_pos hk]
        refine ⟨r, r2 :: rest2, rfl, [], r2 :: rest2, rfl, rfl, ?_, by simp⟩
        intro x hx
        rcases List.mem_cons.mp hx with hx | hx
        · rw [hx]; exact keyLEb_refl repo r
        · exact keyLEb_trans hk (hmin x hx)
      · rw [if_neg hk]
        have hkf : keyLEb repo r c = false := by
          cases hkk : keyLEb repo r c
          · rfl
          · exact absurd hkk hk
        have hcr : keyLEb repo c r = true := by
          rcases keyLEb_total repo r c with h | h
          · exact absurd h hk
          · exact h
        refine ⟨c, r :: rem, rfl, r :: pre, post, by rw [hl]; rfl,
          by rw [hrem]; rfl, ?_, ?_⟩
        · intro x hx
          rcases List.mem_cons.mp hx with hx | hx
          · rw [hx]; exact hcr
          · exact hmin x hx
        · intro x hx
          rcases List.mem_cons.mp hx with hx | hx
          · rw [hx]; exact hkf
          · exact hpre x hx

/-- Validity of a choice function: it follows the spec Choosing relation on
every non-empty pending list and returns nothing on the empty list. -/
def ValidPick
    (pick : Repo → List Requirement → Option (Requirement × List Requirement)) :
    Prop :=
  ∀ repo l, (l = [] → pick repo l = none) ∧
    (l ≠ [] → ∃ c rem, pick repo l = some (c, rem) ∧ IsSpecChoice repo l c rem)

theorem validPick_specChoose : ValidPick specChoose := by
  intro repo l
  constructor
  · intro h
    subst h
    rfl
  · exact specChoose_spec repo l

/-- A resolved entry: package name, chosen version and chosen variant. -/
abbrev Rsv := List Char × Version × Variant

def findResolved (resolved : List Rsv) (n : List Char) : Option Rsv :=
  resolved.find? (fun t => decide (t.1 = n))

/-- Try a list of candidates in order and return the first success, or a
default error when all fail; the engine of chronological backtracking. -/
def firstSuccess (f : α → Except SolveError β) :
    List α → SolveError → Except SolveError β
  | [], e => .error e
  | a :: t, e =>
    match f a with
    | .ok b => .ok b
    | .error _ => firstSuccess f t e

/-- Test whether a version of a package is excluded by a recorded conflict
requirement. Modelled from the spec: conflict-polarity requests are
permanent exclusions never chosen against. -/
def excludes (excl : List Requirement) (n : List Char) (v : Version) : Bool :=
  excl.any (fun e => decide (e.rname = n) && containsR e.range v)

/-- Candidate variants for a requirement: repository versions within range
in repository (descending) order, each version's variants in declaration
order. Modelled from the spec Expanding step. -/
def candidates (repo : Repo) (rq : Requirement) : List (Version × Variant) :=
  ((familyVersions repo rq.rname).filter
    (fun pv => containsR rq.range pv.ver)).flatMap
    (fun pv => pv.variants.map (fun va => (pv.ver, va)))

/-- Depth-bounded backtracking solver. Modelled from the spec Solver state
machine: the pending list holds outstanding requirements, the chosen
requirement is the priority-minimal one (supplied by the pick function), a
missing package or an unsatisfiable requirement is a local conflict that
fails only the current branch (the caller tries the next candidate), and
exhaustion of the depth bound reports a cycle as the spec depth-bound rule
prescribes. -/
def solveWith
    (pick : Repo → List Requirement → Option (Requirement × List Requirement)) :
    Nat → Repo → List Rsv → List Requirement → List Requirement →
    Except SolveError (List Rsv)
  | 0, _, _, _, _ => .error .cyclicRequirement
  | fuel + 1, repo, resolved, pending, excl =>
    match pick repo pending with
    | none => .ok resolved
    | some (rq, rest) =>
      match rq.pol with
      | .conflictPol =>
        match findResolved resolved rq.rname with
        | some (_, v, _) =>
          if containsR rq.range v then .error (.resolveFailed rq.rname)
          else solveWith pick fuel repo resolved rest (rq :: excl)
        | none => solveWith pick fuel repo resolved rest (rq :: excl)
      | _ =>
        match findResolved resolved rq.rname with
        | some (_, v, _) =>
          if containsR rq.range v then solveWith pick fuel repo resolved rest excl
          else .error (.resolveFailed rq.rname)
        | none =>
          match getVersions repo rq.rname with
          | .error _ => .error (.resolveFailed rq.rname)
          | .ok _ =>
            firstSuccess
              (fun cd => solveWith pick fuel repo
                (resolved ++ [(rq.rname, cd.1, cd.2)]) (rest ++ cd.2.vreqs) excl)
              ((candidates repo rq).filter
                (fun cd => !excludes excl rq.rname cd.1))
              (.resolveFailed rq.rname)

def dedupNames : List (List Char) → List (List Char)
  | [] => []
  | n :: t => n :: (dedupNames t).filter (fun m => decide (m ≠ n))

def insertSorted (x : Rsv) : List Rsv → List Rsv
  | [] => [x]
  | y :: t => if charsLeB x.1 y.1 then x :: y :: t else y :: insertSorted x t

def sortByName (l : List Rsv) : List Rsv := l.foldr insertSorted []

/-- Context assembly. Modelled from the spec Solved step: roots first in
request order, then transitively discovered packages sorted by name. -/
def assemble (reqs : List Requirement) (resolved : List Rsv) : List Rsv :=
  let rootNames := dedupNames (reqs.map (fun rq => rq.rname))
  let roots := rootNames.filterMap (fun n => findResolved resolved n)
  let others := resolved.filter (fun t => decide (t.1 ∉ rootNames))
  roots ++ sortByName others

/-- Full solve: run the backtracking search from the root requests and
assemble the context deterministically. Modelled from the spec. -/
def solve
    (pick : Repo → List Requirement → Option (Requirement × List Requirement))
    (fuel : Nat) (repo : Repo) (reqs : List Requirement) :
    Except SolveError (List Rsv) :=
  (solveWith pick fuel repo [] reqs []).map (assemble reqs)

theorem firstSuccess_congr {f g : α → Except SolveError β}
    (l : List α) (e : SolveError) (h : ∀ a ∈ l, f a = g a) :
    firstSuccess f l e = firstSuccess g l e := by
  induction l with
  | nil => rfl
  | cons a t ih =>
    rw [firstSuccess, firstSuccess, h a (List.mem_cons_self _ _)]
    cases g a with
    | ok b => rfl
    | error e2 => exact ih fun x hx => h x (List.mem_cons_of_mem _ hx)

theorem solveWith_deterministic {pick1 pick2}
    (h1 : ValidPick pick1) (h2 : ValidPick pick2) :
    ∀ (fuel : Nat) (repo : Repo) (resolved : List Rsv)
      (pending excl : List Requirement),
      solveWith pick1 fuel repo resolved pending excl =
      solveWith pick2 fuel repo resolved pending excl := by
  intro fuel
  induction fuel with
  | zero => intro repo resolved pending excl; rfl
  | succ n ih =>
    intro repo resolved pending excl
    rw [solveWith, solveWith]
    have hpick : pick1 repo pending = pick2 repo pending := by
      cases hp : pending with
      | nil => rw [(h1 repo []).1 rfl, (h2 repo []).1 rfl]
      | cons a t =>
        obtain ⟨c1, rem1, he1, hs1⟩ := (h1 repo (a :: t)).2 (by simp)
        obtain ⟨c2, rem2, he2, hs2⟩ := (h2 repo (a :: t)).2 (by simp)
        obtain ⟨hc, hrem⟩ := IsSpecChoice_unique hs1 hs2
        rw [he1, he2, hc, hrem]
    rw [hpick]
    cases pick2 repo pending with
    | none => rfl
    | some pr =>
      obtain ⟨rq, rest⟩ := pr
      dsimp only
      cases rq.pol with
      | conflictPol =>
        cases findResolved resolved rq.rname with
        | some t =>
          obtain ⟨n2, v, va⟩ := t
          dsimp only
          split
          · rfl
          · exact ih repo resolved rest (rq :: excl)
        | none => exact ih repo resolved rest (rq :: excl)
      | normal =>
        cases findResolved resolved rq.rname with
        | some t =>
          obtain ⟨n2, v, va⟩ := t
          dsimp only
          split
          · exact ih repo resolved rest excl
          · rfl
        | none =>
          cases getVersions repo rq.rname with
          | error e => rfl
          | ok vs =>
            dsimp only
            exact firstSuccess_congr _ _ fun cd _ => ih repo
              (resolved ++ [(rq.rname, cd.1, cd.2)]) (rest ++ cd.2.vreqs) excl
      | weak =>
        cases findResolved resolved rq.rname with
        | some t =>
          obtain ⟨n2, v, va⟩ := t
          dsimp only
          split
          · exact ih repo resolved rest excl
          · rfl
        | none =>
          cases getVersions repo rq.rname with
          | error e => rfl
          | ok vs =>
            dsimp only
            exact firstSuccess_congr _ _ fun cd _ => ih repo
              (resolved ++ [(rq.rname, cd.1, cd.2)]) (rest ++ cd.2.vreqs) excl

theorem firstSuccess_error {f : α → Except SolveError β} :
    ∀ (l : List α) (e e2 : SolveError),
      firstSuccess f l e = .error e2 → e2 = e := by
  intro l
  induction l with
  | nil =>
    intro e e2 h
    rw [firstSuccess] at h
    injection h with h
    exact h.symm
  | cons a t ih =>
    intro e e2 h
    rw [firstSuccess] at h
    cases hfa : f a with
    | ok b => rw [hfa] at h; cases h
    | error e3 => rw [hfa] at h; exact ih e e2 h

theorem solveWith_no_packageNotFound (pick) :
    ∀ (fuel : Nat) (repo : Repo) (resolved : List Rsv)
      (pending excl : List Requirement) (e : SolveError),
      solveWith pick fuel repo resolved pending excl = .error e →
      ∀ n, e ≠ .packageNotFound n := by
  intro fuel
  induction fuel with
  | zero =>
    intro repo resolved pending excl e h n
    rw [solveWith] at h
    injection h with h
    rw [← h]
    simp
  | succ m ih =>
    intro repo resolved pending excl e h n
    rw [solveWith] at h
    cases hp : pick repo pending with
    | none => rw [hp] at h; cases h
    | some pr =>
      obtain ⟨rq, rest⟩ := pr
      rw [hp] at h
      dsimp only at h
      cases hq : rq.pol with
      | conflictPol =>
        rw [hq] at h
        dsimp only at h
        cases hr : findResolved resolved rq.rname with
        | some t =>
          obtain ⟨n2, v, va⟩ := t
          rw [hr] at h
          dsimp only at h
          split at h
          · injection h with h
            rw [← h]
            simp
          · exact ih repo resolved rest (rq :: excl) e h n
        | none =>
          rw [hr] at h
          exact ih repo resolved rest (rq :: excl) e h n
      | normal =>
        rw [hq] at h
        dsimp only at h
        cases hr : findResolved resolved rq.rname with
        | some t =>
          obtain ⟨n2, v, va⟩ := t
          rw [hr] at h
          dsimp only at h
          split at h
          · exact ih repo resolved rest excl e h n
          · injection h with h
            rw [← h]
            simp
        | none =>
          rw [hr] at h
          dsimp only at h
          cases hg : getVersions repo rq.rname with
          | error e2 =>
            rw [hg] at h
            injection h with h
            rw [← h]
            simp
          | ok vs =>
            rw [hg] at h
            dsimp only at h
            have := firstSuccess_error _ _ _ h
            rw [this]
            simp
      | weak =>
        rw [hq] at h
        dsimp only at h
        cases hr : findResolved resolved rq.rname with
        | some t =>
          obtain ⟨n2, v, va⟩ := t
          rw [hr] at h
          dsimp only at h
          split at h
          · exact ih repo resolved rest excl e h n
          · injection h with h
            rw [← h]
            simp
        | none =>
          rw [hr] at h
          dsimp only at h
          cases hg : getVersions repo rq.rname with
          | error e2 =>
            rw [hg] at h
            injection h with h
            rw [← h]
            simp
          | ok vs =>
            rw [hg] at h
            dsimp only at h
            have := firstSuccess_error _ _ _ h
            rw [this]
            simp

theorem solve_missing_root (repo : Repo) (n : List Char) (fuel : Nat)
    (hmiss : familyVersions repo n = []) :
    solve specChoose (fuel + 1) repo [⟨n, anyR, .normal⟩] =
      .error (.resolveFailed n) := by
  unfold solve
  rw [solveWith]
  have hch : specChoose repo [⟨n, anyR, .normal⟩] =
      some (⟨n, anyR, .normal⟩, []) := rfl
  rw [hch]
  dsimp only
  have hfr : findResolved [] n = none := rfl
  rw [hfr]
  dsimp only
  unfold getVersions
  rw [hmiss]
  rfl

/-- Name of the demo package that is absent from the demo repository. -/
def mName : List Char := ['m']

/-- Name of the demo package b present in the demo repository. -/
def bName : List Char := ['b']

/-- Variant of demo package b version 2, requiring the missing package m. -/
def demoVariantTwo : Variant := ⟨0, [⟨mName, anyR, .normal⟩]⟩

/-- Variant of demo package b version 1, with no requirements. -/
def demoVariantOne : Variant := ⟨0, []⟩

/-- Demo repository: package b has versions 2 (requiring the missing
package m) and 1 (no requirements), in descending order. -/
def demoRepo : Repo :=
  [⟨bName, [⟨[Token.num 2], [demoVariantTwo]⟩, ⟨[Token.num 1], [demoVariantOne]⟩]⟩]

/-- Expected demo context: b resolved at version 1 after backtracking past
version 2 whose dependency is missing. -/
def demoCtx : List Rsv := [(bName, [Token.num 1], demoVariantOne)]

/-- C5: a repository query for a name with zero versions fails with
PackageNotFoundError; the solver never surfaces PackageNotFoundError as its
own failure (a missing package is a conflict that fails only the current
search branch, while the solver's terminal errors are ResolveFailedError or
the depth-bound CyclicRequirementError); when the missing package is the
sole mandatory root request the whole resolve fails with
ResolveFailedError; and a missing dependency merely drives backtracking: in
the demo repository, b version 2 requires the missing package m, and the
solve succeeds with b version 1. -/
theorem c5_missing_package_handling :
    (∀ repo n, familyVersions repo n = [] →
      getVersions repo n = .error (.packageNotFound n)) ∧
    (∀ (pick : Repo → List Requirement →
        Option (Requirement × List Requirement))
      (fuel : Nat) (repo : Repo) (resolved : List Rsv)
      (pending excl : List Requirement) (e : SolveError),
      solveWith pick fuel repo resolved pending excl = .error e →
      ∀ n, e ≠ .packageNotFound n) ∧
    (∀ repo n fuel, familyVersions repo n = [] →
      solve specChoose (fuel + 1) repo [⟨n, anyR, .normal⟩] =
        .error (.resolveFailed n)) ∧
    solve specChoose 10 demoRepo [⟨bName, anyR, .normal⟩] = .ok demoCtx := by
  refine ⟨?_, ?_, ?_, ?_⟩
  · intro repo n h
    unfold getVersions
    rw [h]
  · intro pick fuel repo resolved pending excl e h n
    exact solveWith_no_packageNotFound pick fuel repo resolved pending excl e h n
  · intro repo n fuel h
    exact solve_missing_root repo n fuel h
  · rfl

/-- Witness for C5 at the demo repository. -/
theorem c5_missing_package_handling_witness :
    getVersions demoRepo mName = .error (.packageNotFound mName) ∧
    SolveError.cyclicRequirement ≠ .packageNotFound mName ∧
    solve specChoose 3 demoRepo [⟨mName, anyR, .normal⟩] =
      .error (.resolveFailed mName) :=
  ⟨c5_missing_package_handling.1 demoRepo mName rfl,
   c5_missing_package_handling.2.1 specChoose 0 demoRepo [] [] []
     .cyclicRequirement rfl mName,
   c5_missing_package_handling.2.2.1 demoRepo mName 2 rfl⟩

/-- C1: the solver is deterministic. It is embedded as a pure function of
the requests and the repository contents (including version and variant
ordering), so two runs on identical inputs are the same term; the one
under-determined step of the spec state machine, choosing the next
requirement to resolve, is pinned down uniquely by the priority rule
(fewest remaining candidates, then name, earliest on ties), so any two
choice functions satisfying the spec rule make the solver produce identical
contexts: the same chosen variants in the same order. -/
theorem c1_solver_deterministic
    (pick1 pick2 : Repo → List Requirement →
      Option (Requirement × List Requirement))
    (h1 : ValidPick pick1) (h2 : ValidPick pick2) (fuel : Nat) (repo : Repo)
    (reqs : List Requirement) :
    solve pick1 fuel repo reqs = solve pick2 fuel repo reqs := by
  unfold solve
  rw [solveWith_deterministic h1 h2 fuel repo [] reqs []]

/-- Witness for C1 on the demo repository with the reference choice
function on both sides. -/
theorem c1_solver_deterministic_witness :
    solve specChoose 10 demoRepo [⟨bName, anyR, .normal⟩] =
    solve specChoose 10 demoRepo [⟨bName, anyR, .normal⟩] :=
  c1_solver_deterministic specChoose specChoose validPick_specChoose
    validPick_specChoose 10 demoRepo [⟨bName, anyR, .normal⟩]

/-- Embedding of GitBash.as_path from rezplugins/shell/gitbash.py: when
normalization is disabled in the config the path is returned unchanged, and
in the enabled branch the path is likewise returned unchanged. -/
def as_path (disable_normalization : Bool) (path : List Char) : List Char :=
  if disable_normalization then path else path

/-- C8: GitBash.as_path is the identity on its path argument, both when
config.disable_normalization is true and when it is false. -/
theorem c8_as_path_identity (disable_normalization : Bool) (path : List Char) :
    as_path disable_normalization path = path := by
  unfold as_path
  split <;> rfl

/-- Drive-letter test matching the character class A-Za-z of the regex
GitBash._drive_regex. -/
def isDriveLetter (c : Char) : Bool :=
  (65 ≤ c.toNat && c.toNat ≤ 90) || (97 ≤ c.toNat && c.toNat ≤ 122)

/-- ASCII lowercasing, the behaviour of str.lower on the matched drive
letter (the embedding models ASCII paths). -/
def lowerChar (c : Char) : Char :=
  if 65 ≤ c.toNat && c.toNat ≤ 90 then Char.ofNat (c.toNat + 32) else c

/-- Embedding of the substitution GitBash._drive_regex.sub(lowrepl, path):
scanning left to right, each occurrence of letter, colon, backslash is
replaced by slash, lowercased letter, slash. -/
def drive_sub : List Char → List Char
  | [] => []
  | [a] => [a]
  | [a, b] => [a, b]
  | a :: b :: c :: rest =>
    if isDriveLetter a && b = ':' && c = '\\' then
      '/' :: lowerChar a :: '/' :: drive_sub rest
    else a :: drive_sub (b :: c :: rest)

/-- Embedding of the subsequent replace of every backslash by a forward
slash. -/
def backslash_to_fwd (p : List Char) : List Char :=
  p.map (fun c => if c = '\\' then '/' else c)

/-- Embedding of GitBash.normalize_paths: unchanged when normalization is
disabled, otherwise the drive-colon substitution followed by the backslash
replacement. -/
def normalize_paths (disable_normalization : Bool) (path : List Char) : List Char :=
  if disable_normalization then path
  else backslash_to_fwd (drive_sub path)

/-- Formalization of the C9 claim wording (the specification side of the
refinement): one left-to-right scan that rewrites every drive prefix
letter, colon, backslash to a slash-delimited lowercased drive letter and
replaces every remaining backslash with a forward slash. -/
def normalize_paths_spec : List Char → List Char
  | [] => []
  | [a] => [if a = '\\' then '/' else a]
  | [a, b] =>
    (if a = '\\' then '/' else a) :: normalize_paths_spec [b]
  | a :: b :: c :: rest2 =>
    if isDriveLetter a && b = ':' && c = '\\' then
      '/' :: lowerChar a :: '/' :: normalize_paths_spec rest2
    else (if a = '\\' then '/' else a) :: normalize_paths_spec (b :: c :: rest2)

theorem charOfNat_toNat {n : Nat} (h : n < 55296) : (Char.ofNat n).toNat = n := by
  unfold Char.ofNat
  split
  · rfl
  · rename_i hv
    exact absurd (Or.inl h) hv

theorem lowerChar_ne_backslash {a : Char} (h : isDriveLetter a = true) :
    lowerChar a ≠ '\\' := by
  unfold lowerChar
  split
  · rename_i hu
    intro hcon
    simp only [Bool.and_eq_true, decide_eq_true_eq] at hu
    have h92 : (Char.ofNat (a.toNat + 32)).toNat = ('\\' : Char).toNat := by
      rw [hcon]
    rw [charOfNat_toNat (by omega)] at h92
    have hbs : ('\\' : Char).toNat = 92 := rfl
    omega
  · intro hcon
    rw [hcon] at h
    exact absurd h (by decide)

theorem normalize_core_eq : ∀ p : List Char,
    backslash_to_fwd (drive_sub p) = normalize_paths_spec p := by
  intro p
  induction p using drive_sub.induct with
  | case1 => rfl
  | case2 a => rfl
  | case3 a b => rfl
  | case4 a b c rest hg ih =>
    rw [drive_sub, if_pos hg, normalize_paths_spec, if_pos hg]
    simp only [backslash_to_fwd, List.map_cons] at ih ⊢
    simp only [Bool.and_eq_true, decide_eq_true_eq] at hg
    have hne : lowerChar a ≠ '\\' := lowerChar_ne_backslash hg.1.1
    simp [hne, ih]
  | case5 a b c rest hg ih =>
    rw [drive_sub, if_neg hg, normalize_paths_spec, if_neg hg]
    simp only [backslash_to_fwd, List.map_cons] at ih ⊢
    rw [ih]

/-- C9: GitBash.normalize_paths returns the path unchanged when
config.disable_normalization is true; when it is false it rewrites every
occurrence of a drive prefix of the form letter, colon, backslash to a
slash-delimited lowercased drive and replaces every remaining backslash
with a forward slash, as captured by the single-scan specification
normalize_paths_spec. -/
theorem c9_normalize_paths (path : List Char) :
    normalize_paths true path = path ∧
    normalize_paths false path = normalize_paths_spec path := by
  constructor
  · rfl
  · unfold normalize_paths
    rw [if_neg (by simp)]
    exact normalize_core_eq path

/-- ASCII lowercasing of a whole path, the behaviour of str.lower in the
system32 check of GitBash.find_executable. -/
def toLowerChars (s : List Char) : List Char := s.map lowerChar

def startsWithChars : List Char → List Char → Bool
  | [], _ => true
  | _ :: _, [] => false
  | a :: t, b :: u => a = b && startsWithChars t u

/-- Substring containment test, the embedding of the Python in operator on
strings. -/
def containsSub (needle : List Char) : List Char → Bool
  | [] => needle.isEmpty
  | c :: t => startsWithChars needle (c :: t) || containsSub needle t

/-- The literal system32 searched for in the discovered path. -/
def sys32 : List Char := ['s', 'y', 's', 't', 'e', 'm', '3', '2']

/-- Embedding of the replace of each backslash by two backslashes applied to
the discovered path. -/
def doubleBackslash (p : List Char) : List Char :=
  p.flatMap (fun c => if c = '\\' then ['\\', '\\'] else [c])

/-- Errors raised by GitBash.find_executable. -/
inductive ExecError where
  | runtimeError : List Char → ExecError
  | valueError : List Char → ExecError
deriving DecidableEq

/-- Embedding of GitBash.find_executable: when the configuration value
executable_fullpath is set (truthy), return it if the file exists and raise
RuntimeError otherwise; when unset, look the executable up through the base
Bash class, raise ValueError when the discovered path contains system32
after lowercasing (the truthiness guard on the discovered path included),
and otherwise return the discovered path with each backslash doubled. -/
def find_executable (executable_fullpath : Option (List Char))
    (fullpath_exists : Bool) (base_exepath : List Char) :
    Except ExecError (List Char) :=
  match executable_fullpath with
  | some fp => if !fullpath_exists then .error (.runtimeError fp) else .ok fp
  | none =>
    if !base_exepath.isEmpty && containsSub sys32 (toLowerChars base_exepath)
    then .error (.valueError base_exepath)
    else .ok (doubleBackslash base_exepath)

/-- C10: when executable_fullpath is set, find_executable returns it if the
file exists and raises RuntimeError if not; when it is unset, the function
raises ValueError exactly when the path discovered by the base Bash lookup
contains system32 case-insensitively, and otherwise returns the discovered
path with each backslash doubled (the additional truthiness guard in the
code is redundant: an empty discovered path cannot contain system32). -/
theorem c10_find_executable (fp base : List Char) (ex : Bool) :
    find_executable (some fp) true base = .ok fp ∧
    find_executable (some fp) false base = .error (.runtimeError fp) ∧
    find_executable none ex base =
      (if containsSub sys32 (toLowerChars base) then .error (.valueError base)
       else .ok (doubleBackslash base)) := by
  refine ⟨rfl, rfl, ?_⟩
  unfold find_executable
  cases hc : containsSub sys32 (toLowerChars base) with
  | true =>
    cases base with
    | nil => simp [toLowerChars, containsSub, sys32] at hc
    | cons a t => simp [hc]
  | false => simp [hc]
